import Mathlib

/-!
Verification of the episode-token parser and mirror reconciler of
`yt_dlp/extractor/gimy.py` (`GimyIE._parse_episode`, `GimyIE._extract_other_src`;
the `idoltv.py` variant differs only in details noted inline).

Shallow embedding conventions:
* Python strings are `List Char` (`Str`); the regex character class `\d` is
  modelled as the ASCII digits `'0'..'9'`, `\s` as the ASCII whitespace
  characters, and `re.IGNORECASE` as ASCII case folding — the labels the code
  works on contain CJK text, ASCII letters and ASCII digits, for which these
  agree with Python's Unicode-aware classes.
* Each regular expression of the source is rendered as a bespoke matching
  function whose backtracking order follows Python's `re` engine; a comment at
  each definition states the regex it embeds and the collapse argument.
* Python `float` values produced by `float(<decimal digit string>)` are
  modelled as exact rationals (`ℚ`); all values produced here are small
  decimal fractions, where IEEE doubles behave exactly.
* A Python exception (ValueError from `strptime`, IndexError from
  `findall(...)[0]`) is modelled as `Except.error ()`.
-/

namespace Gimy

abbrev Str := List Char

instance {ε α : Type} [DecidableEq ε] [DecidableEq α] : DecidableEq (Except ε α)
  | Except.error e1, Except.error e2 =>
    if h : e1 = e2 then Decidable.isTrue (by rw [h])
    else Decidable.isFalse (fun hc => h (by cases hc; rfl))
  | Except.error _, Except.ok _ => Decidable.isFalse (fun hc => by cases hc)
  | Except.ok _, Except.error _ => Decidable.isFalse (fun hc => by cases hc)
  | Except.ok a1, Except.ok a2 =>
    if h : a1 = a2 then Decidable.isTrue (by rw [h])
    else Decidable.isFalse (fun hc => h (by cases hc; rfl))

/-- ASCII decimal digit (codepoints 48–57), the model of the regex class `\d`. -/
def isDig (c : Char) : Bool := decide (48 ≤ c.toNat ∧ c.toNat ≤ 57)

/-- ASCII whitespace, the model of the regex class `\s`. -/
def isSpc (c : Char) : Bool :=
  c = ' ' ∨ c = '\t' ∨ c = '\n' ∨ c = '\r' ∨ c = '\x0b' ∨ c = '\x0c'

/-- ASCII lower-casing, the model of `re.IGNORECASE` folding. -/
def lowC (c : Char) : Char :=
  if 'A' ≤ c ∧ c ≤ 'Z' then Char.ofNat (c.toNat + 32) else c

/-- Numeric value of a digit character. -/
def dv (c : Char) : Nat := c.toNat - 48

/-- Numeric value of a digit string (`int`/`float` of the string). -/
def natOf (s : Str) : Nat := s.foldl (fun a c => a * 10 + dv c) 0

/-- Length of the maximal digit run at the head of the string. -/
def digRun (s : Str) : Nat := (s.takeWhile isDig).length

/-- Length of the maximal `\s` run at the head of the string. -/
def spcRun (s : Str) : Nat := (s.takeWhile isSpc).length

/-- Case-insensitive (ASCII) literal match at the head of the string. -/
def ciPre : Str → Str → Bool
  | [], _ => true
  | _ :: _, [] => false
  | p :: ps, c :: cs => lowC c = lowC p && ciPre ps cs

/-- Literal match at the head of the string. -/
def litPre : Str → Str → Bool
  | [], _ => true
  | _ :: _, [] => false
  | p :: ps, c :: cs => (c = p : Bool) && litPre ps cs

/-- First success of `f` over the suffixes of `s`, longest (leftmost position)
first — the scan order of `re.search`/`re.findall`. -/
def scanFirst (f : Str → Option α) : Str → Option α
  | [] => f []
  | c :: u => (f (c :: u)).orElse fun _ => scanFirst f u

/-- `true` when `p` holds on some suffix of `s` (the truthiness of a search). -/
def anySuf (p : Str → Bool) : Str → Bool
  | [] => p []
  | c :: u => p (c :: u) || anySuf p u

/-- Token of `_parse_episode`: the first tuple component, either a `float`
(episode numbers) or a `str` (date strings, the resolution marker `'RES'`,
literal fallback text). -/
inductive Val where
  | num (q : ℚ)
  | str (s : Str)
deriving DecidableEq, Repr

/-- One parsed token `(value, part, tag)`; the tag is the single-character
kind string `'d'`, `'e'`, `'r'` or `'n'` of the source. -/
structure Tok where
  val : Val
  part : Str
  tag : Char
deriving DecidableEq, Repr

/-! ### Normalisation and part extraction

`episode = string.replace('上', '-1').replace('下', '-2')`: every `上` becomes
`-1` and every `下` becomes `-2` (the first replacement introduces no `下`, so
the two sequential passes equal one simultaneous pass). -/

def normEp (s : Str) : Str :=
  s.foldr (fun c acc =>
    (if c = '上' then ['-', '1'] else if c = '下' then ['-', '2'] else [c]) ++ acc) []

/-- Full-suffix match of `[-_]0?(\d+)[集）]?$` at the head of `t`, returning the
capture.  The pattern is `$`-anchored, so a match starting here must consume the
whole rest of the string: a dash or underscore, then a nonempty digit run
(greedy `0?` peels one leading zero when at least one digit remains), then
optionally a single `集` or `）` and the end.  `[集）]?` cannot absorb a digit
and `\d+` cannot stop early (the next character would be a digit), so the run
is exactly the maximal one. -/
def partFin : Str → Option Str
  | [] => none
  | c :: u =>
    if c = '-' ∨ c = '_' then
      let ds := u.takeWhile isDig
      let rest := u.drop ds.length
      if ds.length ≥ 1 ∧ (rest = [] ∨ rest = ['集'] ∨ rest = ['）']) then
        some (if ds.length ≥ 2 ∧ ds.headD ' ' = '0' then ds.drop 1 else ds)
      else none
    else none

def yugao : Str := ['預', '告']

/-- `part = (re.findall(r'[-_]0?(\d+)[集）]?$', episode) or re.findall(r'預告', episode) or [''])[0]`:
the capture of the leftmost match of the anchored pattern, else the literal
`預告` when it occurs as a substring, else the empty string. -/
def partOf (ep : Str) : Str :=
  match scanFirst partFin ep with
  | some p => p
  | none => if anySuf (litPre yugao) ep then yugao else []

/-- Python `str.split(' ')`: split at every single space; `''.split(' ') = ['']`,
consecutive spaces yield empty segments.  Never returns the empty list. -/
def splitSp : Str → List Str
  | [] => [[]]
  | c :: u =>
    if c = ' ' then [] :: splitSp u
    else
      match splitSp u with
      | h :: t => (c :: h) :: t
      | [] => [[c]]

/-! ### Date pattern

Search `(19|20)?\d*\d{2}[01]\d[0-3]\d`: since `(19|20)?` and `\d*` are both
nullable, the attempt at a position succeeds exactly when the six-character
core `\d{2}[01]\d[0-3]\d` matches at some position, so the search reduces to
scanning for that window.  (The idoltv.py variant searches `(19|20)?\d{6}`
instead — any six digits; the claims are settled against the gimy.py form.) -/

/-- The six-character core `\d{2}[01]\d[0-3]\d` at the head of the string. -/
def win6b : Str → Bool
  | a :: b :: c :: d :: e :: f :: _ =>
    isDig a && isDig b && decide (c = '0' ∨ c = '1') && isDig d &&
      decide (e = '0' ∨ e = '1' ∨ e = '2' ∨ e = '3') && isDig f
  | _ => false

/-- Capture of the core when it matches here. -/
def win6cap (v : Str) : Option Str := if win6b v then some (v.take 6) else none

/-- `\d*(\d{2}[01]\d[0-3]\d)` at `u`, emulating the greedy `\d*`: it first takes
the maximal digit run of length `m`, then backtracks one digit at a time, so the
window positions `u.drop m, …, u.drop 0` are tried in that order. -/
def tryKs : Nat → Str → Option Str
  | 0, u => win6cap u
  | k + 1, u => (win6cap (u.drop (k + 1))).orElse fun _ => tryKs k u

def dTail (u : Str) : Option Str := tryKs (digRun u) u

/-- One attempt of `(?:19|20)?\d*(\d{2}[01]\d[0-3]\d)` anchored at `t`:
the optional group tries `19`, then `20`, then the empty alternative. -/
def dAt (t : Str) : Option Str :=
  (if litPre ['1', '9'] t then dTail (t.drop 2) else none).orElse fun _ =>
  ((if litPre ['2', '0'] t then dTail (t.drop 2) else none).orElse fun _ =>
  dTail t)

/-- `re.search(r'(19|20)?\d*\d{2}[01]\d[0-3]\d', e)` truthiness. -/
def dateSearch (s : Str) : Bool := anySuf win6b s

/-- `re.findall(r'(?:19|20)?\d*(\d{2}[01]\d[0-3]\d)', e)[0][-6:]`; the capture
is exactly six characters, so the final `[-6:]` is the identity. -/
def dateCap (s : Str) : Option Str := scanFirst dAt s

/-! ### Episode-number pattern -/

def headDig : Str → Bool
  | [] => false
  | c :: _ => isDig c

/-- `true` when, after the maximal `\s*` run, a digit follows — the collapsed
form of `\s*\d` with a greedy, backtracking `\s*` (taking fewer spaces leaves a
space, not a digit, as the next character). -/
def stdAfter (v : Str) : Bool := headDig (v.drop (spcRun v))

def epWord : Str := ['e', 'p', 'i', 's', 'o', 'd', 'e']

/-- `第\d+集` anchored here: `第`, a nonempty digit run, then `集` right after
the run (greedy `\d+` backtracking cannot expose `集` anywhere else). -/
def sAlt1 : Str → Bool
  | [] => false
  | c :: u =>
    decide (c = '第') && decide (1 ≤ digRun u) &&
      decide ((u.drop (digRun u)).headD ' ' = '集')

/-- `ep?\s*\d+` anchored here (IGNORECASE): `e`, an optional `p`, spaces, digit. -/
def sAlt2 : Str → Bool
  | [] => false
  | c :: v =>
    decide (lowC c = 'e') &&
      ((match v with
        | p :: w => decide (p = 'p' ∨ p = 'P') && stdAfter w
        | [] => false) ||
       stdAfter v)

/-- `episode\s*\d+` anchored here (IGNORECASE). -/
def sAlt3 (t : Str) : Bool := ciPre epWord t && stdAfter (t.drop 7)

/-- `（\d+）` anchored here. -/
def sAlt4 : Str → Bool
  | [] => false
  | c :: u =>
    decide (c = '（') && decide (1 ≤ digRun u) &&
      decide ((u.drop (digRun u)).headD ' ' = '）')

/-- `re.search(r'(第\d+集)|(ep?\s*\d+)|(episode\s*\d+)|（\d+）', e, re.IGNORECASE)`
truthiness: some alternative matches at some position. -/
def epSearch (s : Str) : Bool := anySuf (fun t => sAlt1 t || sAlt2 t || sAlt3 t || sAlt4 t) s

/-- Tail `0?(\d+)[集）]?` of the findall pattern
`(?:第|ep?\s*|episode\s*|（)+0?(\d+)[集）]?`.  The capture is the digits taken
by `\d+`: the maximal run, minus one leading zero when `0?` can keep a digit
for `\d+`.  `[集）]?` and the end of the pattern impose no constraint on the
rest, so no further backtracking occurs. -/
def epFin : Str → Option Str
  | [] => none
  | c :: u =>
    if isDig c then
      if c = '0' ∧ headDig u then some (u.takeWhile isDig)
      else some ((c :: u).takeWhile isDig)
    else none

def downList : Nat → List Nat
  | 0 => [0]
  | n + 1 => (n + 1) :: downList n

def firstSomeL (g : Nat → Option α) : List Nat → Option α
  | [] => none
  | i :: r => (g i).orElse fun _ => firstSomeL g r

/-- One round of the `(?:第|ep?\s*|episode\s*|（)+` loop of the findall
pattern, in Python's depth-first backtracking order: the alternatives are
tried in source order (inside `ep?\s*` the greedy `p?` and `\s*` try longer
matches first), each continuing with `rec`; after all of them fail the loop is
left and the tail matches via `fin`.  `rec` is the loop with one unit less
fuel and `fin` the loop exit. -/
def epStep (rec : Str → Option Str) (fin : Str → Option Str) (u : Str) : Option Str :=
  (match u with
   | c :: v => if c = '第' then rec v else none
   | [] => none).orElse fun _ =>
  ((match u with
    | c :: v =>
      if lowC c = 'e' then
        ((match v with
          | p :: w =>
            if p = 'p' ∨ p = 'P' then
              firstSomeL (fun i => rec (w.drop i)) (downList (spcRun w))
            else none
          | [] => none).orElse fun _ =>
         firstSomeL (fun i => rec (v.drop i)) (downList (spcRun v)))
      else none
    | [] => none).orElse fun _ =>
  ((if ciPre epWord u then
      firstSomeL (fun i => rec ((u.drop 7).drop i)) (downList (spcRun (u.drop 7)))
    else none).orElse fun _ =>
  ((match u with
    | c :: v => if c = '（' then rec v else none
    | [] => none).orElse fun _ =>
  fin u)))

/-- The `+` loop with fuel: `first` is `true` while no iteration has matched
yet (`+` needs at least one).  Each iteration consumes at least one character,
so the fuel `|u| + 1` used at the entry point is never exhausted. -/
def epLoop : Nat → Bool → Str → Option Str
  | 0, first, u => if first then none else epFin u
  | f + 1, first, u =>
    epStep (epLoop f false) (fun u2 => if first then none else epFin u2) u

def epAt (t : Str) : Option Str := epLoop (t.length + 1) true t

/-- `re.findall(r'(?:第|ep?\s*|episode\s*|（)+0?(\d+)[集）]?', e, re.IGNORECASE)[0]`. -/
def epCap (s : Str) : Option Str := scanFirst epAt s

/-! ### Bare-number pattern -/

/-- `re.search(r'^\D*\d{1,4}\D*$', e)`: the anchors force the whole string to
be non-digits, then 1–4 digits, then non-digits, i.e. the string contains
exactly one maximal digit run and it has length 1–4. -/
def bareSearch (s : Str) : Bool :=
  let a := s.takeWhile (fun c => !isDig c)
  let d := (s.drop a.length).takeWhile isDig
  decide (1 ≤ d.length) && decide (d.length ≤ 4) &&
    (s.drop (a.length + d.length)).all (fun c => !isDig c)

/-- Greedy `(\d{1,4})`: at most four digits of the maximal run. -/
def take4Dig (u : Str) : Str := (u.takeWhile isDig).take 4

/-- `0?(\d{1,4})` anchored here (no following constraint): a digit must be
available for the group; greedy `0?` consumes a zero only when a digit is left. -/
def bAt : Str → Option Str
  | [] => none
  | c :: u =>
    if isDig c then
      some (if c = '0' ∧ headDig u then take4Dig u else take4Dig (c :: u))
    else none

/-- `re.findall(r'0?(\d{1,4})', e)[0]`. -/
def bareCap (s : Str) : Option Str := scanFirst bAt s

/-! ### Range pattern -/

/-- `\d{1,4}[-+]\d` anchored here: within the maximal digit run only size
`digRun` can be followed by a non-digit, so the run must have length 1–4 with a
dash or plus, then a digit, right after it. -/
def rCore (v : Str) : Bool :=
  let r := digRun v
  decide (1 ≤ r) && decide (r ≤ 4) &&
    decide (v.get? r = some '-' ∨ v.get? r = some '+') &&
    (match v.get? (r + 1) with | some c => isDig c | none => false)

/-- `re.search(r'^\D?\d{1,4}[-+]\d{1,4}', e)`: the optional leading non-digit
is taken exactly when the first character is not a digit. -/
def rangeSearch : Str → Bool
  | [] => false
  | c :: u => if isDig c then rCore (c :: u) else rCore u

/-- Second `0?(\d{1,4})` of the findall pattern (same shape as `bAt`). -/
def rFinTwo : Str → Option Str
  | [] => none
  | c :: u =>
    if isDig c then
      some (if c = '0' ∧ headDig u then take4Dig u else take4Dig (c :: u))
    else none

/-- `(\d{1,4})[-+]` at `v`, trying the greedy sizes `k, k-1, …, 1`; callers
pass `k = min 4 (digRun v)` so every tried size consumes only digits.  Returns
the digits and the rest after the dash. -/
def rKs : Nat → Str → Option (Str × Str)
  | 0, _ => none
  | k + 1, v =>
    (if v.get? (k + 1) = some '-' ∨ v.get? (k + 1) = some '+' then
       some (v.take (k + 1), v.drop (k + 2))
     else none).orElse fun _ => rKs k v

def rTryFrom (v : Str) : Option (Str × Str) := rKs (min 4 (digRun v)) v

/-- `0?(\d{1,4})[-+]0?(\d{1,4})` anchored here: greedy `0?` first, then the
first group and dash, then the second group. -/
def rAt : Str → Option (Str × Str)
  | [] => none
  | c :: u =>
    (if c = '0' then (rTryFrom u).bind (fun z => (rFinTwo z.2).map (fun n1 => (z.1, n1)))
     else none).orElse fun _ =>
    (if isDig c then
       (rTryFrom (c :: u)).bind (fun z => (rFinTwo z.2).map (fun n1 => (z.1, n1)))
     else none)

/-- `re.findall(r'0?(\d{1,4})[-+]0?(\d{1,4})', e)[0]`. -/
def rangeCap (s : Str) : Option (Str × Str) := scanFirst rAt s

/-! ### Resolution pattern -/

/-- `re.search(r'^(SD|HD|FHD|\d{3,4}P|標清|超清|高清|正片|中字|TC)', e, re.IGNORECASE)`:
anchored at the start; `\d{3,4}P` matches exactly when the leading digit run
has length 3 or 4 and is followed by `P`/`p`.  (The idoltv.py variant lacks
the `TC` alternative; the claims are settled against the gimy.py form.) -/
def resSearch (s : Str) : Bool :=
  ciPre ['s', 'd'] s || ciPre ['h', 'd'] s || ciPre ['f', 'h', 'd'] s ||
  (let r := digRun s
   decide ((r = 3 ∨ r = 4) ∧ (s.get? r = some 'P' ∨ s.get? r = some 'p'))) ||
  litPre ['標', '清'] s || litPre ['超', '清'] s || litPre ['高', '清'] s ||
  litPre ['正', '片'] s || litPre ['中', '字'] s || ciPre ['t', 'c'] s

/-! ### Per-segment tokens and the parser -/

def resStr : Str := ['R', 'E', 'S']

/-- The date `if` of the per-segment loop.  `Except.error ()` models the
`IndexError` a `findall(...)[0]` would raise were the capture list empty
(proved unreachable below). -/
def dTok (part e : Str) : Except Unit (List Tok) :=
  if dateSearch e then
    match dateCap e with
    | some w => Except.ok [⟨Val.str w, part, 'd'⟩]
    | none => Except.error ()
  else Except.ok []

/-- The `if/elif/elif` chain for the three number patterns. -/
def nTok (part e : Str) : Except Unit (List Tok) :=
  if epSearch e then
    match epCap e with
    | some ds => Except.ok [⟨Val.num (natOf ds : ℚ), part, 'e'⟩]
    | none => Except.error ()
  else if bareSearch e then
    match bareCap e with
    | some ds => Except.ok [⟨Val.num (natOf ds : ℚ), part, 'e'⟩]
    | none => Except.error ()
  else if rangeSearch e then
    match rangeCap e with
    | some z => Except.ok
        [⟨Val.num ((natOf z.1 : ℚ) + (natOf z.2 : ℚ) / 10000), part, 'e'⟩]
    | none => Except.error ()
  else Except.ok []

/-- The token list `x` built for one whitespace-split segment `e` of the label:
the date `if`, the number `if/elif/elif` chain, an independent `if` for the
quality pattern, and the literal fallback when nothing matched. -/
def segToks (part : Str) (e : Str) : Except Unit (List Tok) :=
  (dTok part e).bind fun x1 =>
  (nTok part e).bind fun x2 =>
  let x := x1 ++ x2 ++ (if resSearch e then [⟨Val.str resStr, part, 'r'⟩] else [])
  Except.ok (if x = [] then [⟨Val.str e, part, 'n'⟩] else x)

/-- One insertion step of a stable sort on the tag character; a new token goes
after every already-placed token whose tag is `≤` its own. -/
def insTok (t : Tok) : List Tok → List Tok
  | [] => [t]
  | h :: r => if h.tag ≤ t.tag then h :: insTok t r else t :: h :: r

/-- `sorted(ep, key=lambda x: x[2])`: stable sort by the tag character
(codepoint order, as Python compares the one-character tag strings). -/
def sortToks (l : List Tok) : List Tok := l.foldl (fun acc t => insTok t acc) []

/-- The `ep = ep + x` accumulation over the segments, left to right. -/
def segsToks (part : Str) : List Str → Except Unit (List Tok)
  | [] => Except.ok []
  | e :: r =>
    (segToks part e).bind fun x =>
    (segsToks part r).bind fun rest =>
    Except.ok (x ++ rest)

/-- `GimyIE._parse_episode` (gimy.py lines 66–87). -/
def parseEpisode (s : Str) : Except Unit (List Tok) :=
  let episode := normEp s
  (segsToks (partOf episode) (splitSp episode)).map sortToks

/-- Total accessor for the (never-failing) parse; `parseToks_eq` below ties it
to `parseEpisode`. -/
def parseToks (s : Str) : List Tok :=
  match parseEpisode s with
  | Except.ok l => l
  | Except.error _ => []

/-! ### `datetime.strptime(-, '%y%m%d')` and day arithmetic

`strptime` with format `%y%m%d` accepts exactly six digits split 2–2–2 where
the month part matches `1[0-2]|0[1-9]` and the day part `3[01]|[12]\d|0[1-9]`
(shorter splits leave unconverted data, a `ValueError`), then the `datetime`
constructor further requires the day to exist in the month.  `%y` maps 00–68
to 2000–2068 and 69–99 to 1969–1999.  `ValueError` is modelled as `none`. -/

def isLeap (y : Nat) : Bool := (y % 4 = 0 ∧ y % 100 ≠ 0) ∨ y % 400 = 0

def mdays (y m : Nat) : Nat :=
  match m with
  | 1 => 31 | 2 => if isLeap y then 29 else 28 | 3 => 31 | 4 => 30
  | 5 => 31 | 6 => 30 | 7 => 31 | 8 => 31 | 9 => 30 | 10 => 31
  | 11 => 30 | 12 => 31 | _ => 0

def strpYmd : Str → Option (Nat × Nat × Nat)
  | [a, b, c, d, e, f] =>
    if isDig a ∧ isDig b ∧ isDig c ∧ isDig d ∧ isDig e ∧ isDig f then
      let yy := dv a * 10 + dv b
      let mm := dv c * 10 + dv d
      let dd := dv e * 10 + dv f
      let y := if yy ≤ 68 then 2000 + yy else 1900 + yy
      if 1 ≤ mm ∧ mm ≤ 12 ∧ 1 ≤ dd ∧ dd ≤ mdays y mm then some (y, mm, dd) else none
    else none
  | _ => none

/-- Days before January 1 of year `y` in the proleptic Gregorian calendar
(so differences of `ordD` values are exact day differences, as for
`datetime` subtraction). -/
def dBeforeY (y : Nat) : Nat :=
  365 * (y - 1) + (y - 1) / 4 - (y - 1) / 100 + (y - 1) / 400

def dBeforeM (y : Nat) : Nat → Nat
  | 0 => 0
  | m + 1 => dBeforeM y m + mdays y m

/-- Ordinal day number of a (valid) date; `(a - b).days` of the source is
`(ordD a : ℤ) - ordD b`. -/
def ordD : Nat × Nat × Nat → Nat
  | (y, m, d) => dBeforeY y + dBeforeM y m + d

/-! ### `GimyIE._extract_other_src` (gimy.py lines 89–116)

`links` is a list of `{'source': …, 'links': [(href, label), …]}` groups; an
accepted entry is the pair extended with the group's source name
(`y += (l['source'],)`).  The identical inline reconciliation loop appears in
`IdoltvIE._real_extract` (idoltv.py lines 189–206). -/

/-- `(href, label, source)` as returned by the reconciler. -/
abbrev Entry3 := Str × Str × Str

structure Group where
  source : Str
  links : List (Str × Str)
deriving DecidableEq, Repr

/-- `('500101', '', '')[0]` — the date string of the fallback tuple used when a
candidate has no date token with the reference token's part; its other two
components are never read, so only the value is modelled. -/
def sentinelD : Str := ['5', '0', '0', '1', '0', '1']

/-- `([x for x in ep if x[1] == e[1] and x[2] == 'd'] or [('500101', '', '')])[0][0]`. -/
def firstCand (e : Tok) (ep : List Tok) : Val :=
  match ep.filter (fun x => x.part = e.part ∧ x.tag = 'd') with
  | [] => Val.str sentinelD
  | x :: _ => x.val

/-- The string a date-tagged token feeds to `strptime` (date tokens always
carry `Val.str`; a numeric value would be a `TypeError` in the source, and the
`[]` default here likewise fails `strpYmd`). -/
def valS : Val → Str
  | Val.str s => s
  | Val.num _ => []

/-- The near-match test
`e[2] == 'd' and abs((strptime(e[0], '%y%m%d') - strptime(cand, '%y%m%d')).days) == 1`
with short-circuit evaluation: no `strptime` runs unless the tag is `'d'`;
a `ValueError` from either call is `Except.error ()`. -/
def nearB (e : Tok) (ep : List Tok) : Except Unit Bool :=
  if e.tag = 'd' then
    match strpYmd (valS e.val) with
    | none => Except.error ()
    | some d1 =>
      match strpYmd (valS (firstCand e ep)) with
      | none => Except.error ()
      | some d2 => Except.ok (((ordD d1 : ℤ) - ordD d2).natAbs = 1)
  else Except.ok false

/-- Total (`false`-on-error) view of `nearB`, used to state list filters. -/
def nearT (e : Tok) (ep : List Tok) : Bool :=
  match nearB e ep with
  | Except.ok b => b
  | Except.error _ => false

/-- The inner `for y in l['links']` loop for one reference token `e`: builds
the exact-match list `z` (entries not already accepted whose token list
contains `e`) and the near-match list `d`. -/
def perLinks (e : Tok) (lsrc : Str) (src : List Entry3) :
    List (Str × Str) → Except Unit (List Entry3 × List Entry3)
  | [] => Except.ok ([], [])
  | y :: rest =>
    (parseEpisode y.2).bind fun ep =>
    let y' : Entry3 := (y.1, y.2, lsrc)
    let zAdd := if y' ∉ src ∧ e ∈ ep then [y'] else []
    (nearB e ep).bind fun b =>
    let dAdd := if b then [y'] else []
    (perLinks e lsrc src rest).bind fun zd =>
    Except.ok (zAdd ++ zd.1, dAdd ++ zd.2)

/-- The `for e in self._parse_episode(episode)` loop: after each token the
accumulator `src` grows by the single exact match if there is exactly one,
else by the single near match if there are no exact matches and exactly one
near match, else not at all. -/
def perToks (lsrc : Str) (ys : List (Str × Str)) :
    List Tok → List Entry3 → Except Unit (List Entry3)
  | [], src => Except.ok src
  | e :: rest, src =>
    (perLinks e lsrc src ys).bind fun zd =>
    let src' :=
      match zd.1 with
      | [y] => src ++ [y]
      | [] => (match zd.2 with | [y] => src ++ [y] | _ => src)
      | _ => src
    perToks lsrc ys rest src'

/-- The outer loop `for l in [l for l in links if l['source'] != current_source]`;
the reference label is re-parsed for each group, exactly as in the source. -/
def perGroups (episode current : Str) : List Group → List Entry3 → Except Unit (List Entry3)
  | [], src => Except.ok src
  | g :: rest, src =>
    if g.source ≠ current then
      (parseEpisode episode).bind fun toks =>
      (perToks g.source g.links toks src).bind fun src' =>
      perGroups episode current rest src'
    else perGroups episode current rest src

/-- `GimyIE._extract_other_src(links, episode, current_source)`. -/
def extractOtherSrc (links : List Group) (episode current : Str) :
    Except Unit (List Entry3) :=
  perGroups episode current links []

/-- Every date token a label parses to carries a `strptime`-valid date string. -/
def datesValid (s : Str) : Prop :=
  ∀ t, t ∈ parseToks s → t.tag = 'd' → (strpYmd (valS t.val)).isSome = true

/-! ### State-passing rendition of the reconciler (frame property)

The group list is the only input structure reachable for mutation by the
source.  Here it is threaded through every loop iteration as explicit state:
each translated statement returns the state it received, because the body
only reads (`y += (l['source'],)` builds a fresh tuple; `z`, `d` and `src`
are fresh locals).  The theorems below show the threaded version returns the
state unchanged and computes the same answer as `extractOtherSrc`. -/

def perLinksT (e : Tok) (lsrc : Str) (src : List Entry3) :
    List (Str × Str) → List Group →
      (Except Unit (List Entry3 × List Entry3)) × List Group
  | [], st => (Except.ok ([], []), st)
  | y :: rest, st =>
    match parseEpisode y.2 with
    | Except.error u => (Except.error u, st)
    | Except.ok ep =>
      let y' : Entry3 := (y.1, y.2, lsrc)
      let zAdd := if y' ∉ src ∧ e ∈ ep then [y'] else []
      match nearB e ep with
      | Except.error u => (Except.error u, st)
      | Except.ok b =>
        let dAdd := if b then [y'] else []
        match perLinksT e lsrc src rest st with
        | (Except.error u, st') => (Except.error u, st')
        | (Except.ok zd, st') => (Except.ok (zAdd ++ zd.1, dAdd ++ zd.2), st')

def perToksT (lsrc : Str) (ys : List (Str × Str)) :
    List Tok → List Entry3 → List Group → (Except Unit (List Entry3)) × List Group
  | [], src, st => (Except.ok src, st)
  | e :: rest, src, st =>
    match perLinksT e lsrc src ys st with
    | (Except.error u, st') => (Except.error u, st')
    | (Except.ok zd, st') =>
      perToksT lsrc ys rest
        (match zd.1 with
         | [y] => src ++ [y]
         | [] => (match zd.2 with | [y] => src ++ [y] | _ => src)
         | _ => src) st'

def perGroupsT (episode current : Str) :
    List Group → List Entry3 → List Group → (Except Unit (List Entry3)) × List Group
  | [], src, st => (Except.ok src, st)
  | g :: rest, src, st =>
    if g.source ≠ current then
      match parseEpisode episode with
      | Except.error u => (Except.error u, st)
      | Except.ok toks =>
        match perToksT g.source g.links toks src st with
        | (Except.error u, st') => (Except.error u, st')
        | (Except.ok src', st') => perGroupsT episode current rest src' st'
    else perGroupsT episode current rest src st

def extractOtherSrcT (links : List Group) (episode current : Str) :
    (Except Unit (List Entry3)) × List Group :=
  perGroupsT episode current links [] links

/-! ### Concrete labels and scenarios

Short inputs used by the closed (fully evaluated) theorems below: source
names, link paths and episode labels drawn from the spec's examples and from
runs of the source code. -/

def sA : Str := ['A']

def sB : Str := ['B']

def lnkA : Str := "/a".toList

def lnkB : Str := "/b".toList

def lnkX : Str := "/x".toList

def lblOneTwo : Str := "1 2".toList

def lblTwo : Str := ['2']

def epOneTwo : Str := "第1集 第2集".toList

def lblFoo : Str := "foo".toList

def ep500102 : Str := "500102".toList

def zeros6 : Str := "000000".toList

def lblEp4 : Str := "EP4".toList

def hdFoo : Str := "HD foo".toList

def abcStr : Str := "abc".toList

def di4ji : Str := "第4集".toList

def z04 : Str := "04".toList

def p1080 : Str := "1080P".toList

def d1080 : Str := "1080".toList

def lbl1080 : Str := "第1080集".toList

def d230813 : Str := "230813".toList

def d230814 : Str := "230814".toList

def ep12up : Str := "第12集上".toList

def tokD14 : Tok := ⟨Val.str d230814, [], 'd'⟩

def toksP : List Tok := [⟨Val.num 1080, [], 'e'⟩, ⟨Val.str resStr, [], 'r'⟩]

/-! ## Shared lemmas

The capture functions succeed whenever the corresponding search succeeded,
so the `findall(...)[0]` subscripts of the source never raise. -/

theorem isSome_orElse (a : Option α) (b : Unit → Option α) :
    (a.orElse b).isSome = (a.isSome || (b ()).isSome) := by
  cases a <;> rfl

theorem scanFirst_isSome_of (f : Str → Option α) (p : Str → Bool)
    (h : ∀ t, p t = true → (f t).isSome = true) :
    ∀ s, anySuf p s = true → (scanFirst f s).isSome = true := by
  intro s
  induction s with
  | nil => intro hs; exact h [] hs
  | cons c u ih =>
    intro hs
    simp only [anySuf, Bool.or_eq_true] at hs
    simp only [scanFirst, isSome_orElse, Bool.or_eq_true]
    rcases hs with h1 | h2
    · exact Or.inl (h _ h1)
    · exact Or.inr (ih h2)

theorem win6cap_isSome (v : Str) (h : win6b v = true) : (win6cap v).isSome = true := by
  simp [win6cap, h]

theorem tryKs_isSome (k : Nat) (u : Str) (h : (win6cap u).isSome = true) :
    (tryKs k u).isSome = true := by
  induction k with
  | zero => simpa [tryKs] using h
  | succ k ih => simp only [tryKs, isSome_orElse, Bool.or_eq_true]; exact Or.inr ih

theorem dAt_isSome (t : Str) (h : win6b t = true) : (dAt t).isSome = true := by
  simp only [dAt, isSome_orElse, Bool.or_eq_true]
  exact Or.inr (Or.inr (tryKs_isSome _ _ (win6cap_isSome t h)))

theorem dateCap_isSome (s : Str) (h : dateSearch s = true) : (dateCap s).isSome = true :=
  scanFirst_isSome_of dAt win6b dAt_isSome s h

theorem headDig_of_digRun (v : Str) (h : 1 ≤ digRun v) : headDig v = true := by
  cases v with
  | nil => simp [digRun, List.takeWhile] at h
  | cons c u =>
    by_cases hc : isDig c = true
    · simp [headDig, hc]
    · simp [digRun, List.takeWhile_cons, hc] at h

theorem epFin_isSome (u : Str) (h : headDig u = true) : (epFin u).isSome = true := by
  cases u with
  | nil => simp [headDig] at h
  | cons c v =>
    simp only [headDig] at h
    simp only [epFin, h, if_true]
    split <;> rfl

theorem firstSomeL_down (g : Nat → Option α) (n : Nat) (h : (g n).isSome = true) :
    (firstSomeL g (downList n)).isSome = true := by
  cases n <;>
    simp only [downList, firstSomeL, isSome_orElse, Bool.or_eq_true] <;>
    exact Or.inl h

theorem epStep_fin (rec fin : Str → Option Str) (u : Str) (h : (fin u).isSome = true) :
    (epStep rec fin u).isSome = true := by
  simp only [epStep, isSome_orElse, Bool.or_eq_true]
  exact Or.inr (Or.inr (Or.inr (Or.inr h)))

theorem epStep_di (rec fin : Str → Option Str) (v : Str) (h : (rec v).isSome = true) :
    (epStep rec fin ('第' :: v)).isSome = true := by
  simp only [epStep, isSome_orElse, Bool.or_eq_true]
  exact Or.inl (by simp [h])

theorem epStep_paren (rec fin : Str → Option Str) (v : Str) (h : (rec v).isSome = true) :
    (epStep rec fin ('（' :: v)).isSome = true := by
  simp only [epStep, isSome_orElse, Bool.or_eq_true]
  exact Or.inr (Or.inr (Or.inr (Or.inl (by simp [h]))))

theorem epStep_e (rec fin : Str → Option Str) (c : Char) (v : Str) (hc : lowC c = 'e')
    (h : (firstSomeL (fun i => rec (v.drop i)) (downList (spcRun v))).isSome = true) :
    (epStep rec fin (c :: v)).isSome = true := by
  simp only [epStep, isSome_orElse, Bool.or_eq_true]
  refine Or.inr (Or.inl ?_)
  rw [if_pos hc]
  simp only [isSome_orElse, Bool.or_eq_true]
  exact Or.inr h

theorem epStep_ep (rec fin : Str → Option Str) (c p : Char) (w : Str) (hc : lowC c = 'e')
    (hp : p = 'p' ∨ p = 'P')
    (h : (firstSomeL (fun i => rec (w.drop i)) (downList (spcRun w))).isSome = true) :
    (epStep rec fin (c :: p :: w)).isSome = true := by
  simp only [epStep, isSome_orElse, Bool.or_eq_true]
  refine Or.inr (Or.inl ?_)
  rw [if_pos hc]
  simp only [isSome_orElse, Bool.or_eq_true]
  exact Or.inl (by rw [if_pos hp]; exact h)

theorem epStep_word (rec fin : Str → Option Str) (u : Str) (hcip : ciPre epWord u = true)
    (h : (firstSomeL (fun i => rec ((u.drop 7).drop i)) (downList (spcRun (u.drop 7)))).isSome
           = true) :
    (epStep rec fin u).isSome = true := by
  simp only [epStep, isSome_orElse, Bool.or_eq_true]
  refine Or.inr (Or.inr (Or.inl ?_))
  rw [if_pos hcip]
  exact h

theorem epLoop_succ (f : Nat) (first : Bool) (u : Str) :
    epLoop (f + 1) first u
      = epStep (epLoop f false) (fun u2 => if first then none else epFin u2) u := rfl

theorem epLoop_fin (f : Nat) (u : Str) (h : (epFin u).isSome = true) :
    (epLoop f false u).isSome = true := by
  cases f with
  | zero => simpa [epLoop] using h
  | succ f => exact epStep_fin _ _ u (by simpa using h)

theorem epAt_isSome (t : Str)
    (h : (sAlt1 t || sAlt2 t || sAlt3 t || sAlt4 t) = true) : (epAt t).isSome = true := by
  simp only [Bool.or_eq_true] at h
  unfold epAt
  rw [epLoop_succ]
  rcases h with ((h1 | h2) | h3) | h4
  · cases t with
    | nil => simp [sAlt1] at h1
    | cons c u =>
      simp only [sAlt1, Bool.and_eq_true, decide_eq_true_eq] at h1
      obtain ⟨⟨hc, hr⟩, -⟩ := h1
      subst hc
      exact epStep_di _ _ u (epLoop_fin _ _ (epFin_isSome u (headDig_of_digRun u hr)))
  · cases t with
    | nil => simp [sAlt2] at h2
    | cons c v =>
      simp only [sAlt2, Bool.and_eq_true, decide_eq_true_eq, Bool.or_eq_true] at h2
      obtain ⟨hc, hrest⟩ := h2
      rcases hrest with hp | hv
      · cases v with
        | nil => simp at hp
        | cons p w =>
          simp only [Bool.and_eq_true, decide_eq_true_eq] at hp
          obtain ⟨hpp, hw⟩ := hp
          exact epStep_ep _ _ c p w hc hpp
            (firstSomeL_down _ _ (epLoop_fin _ _ (epFin_isSome _ hw)))
      · exact epStep_e _ _ c v hc
          (firstSomeL_down _ _ (epLoop_fin _ _ (epFin_isSome _ hv)))
  · simp only [sAlt3, Bool.and_eq_true] at h3
    obtain ⟨hcip, hstd⟩ := h3
    exact epStep_word _ _ t hcip
      (firstSomeL_down _ _ (epLoop_fin _ _ (epFin_isSome _ hstd)))
  · cases t with
    | nil => simp [sAlt4] at h4
    | cons c u =>
      simp only [sAlt4, Bool.and_eq_true, decide_eq_true_eq] at h4
      obtain ⟨⟨hc, hr⟩, -⟩ := h4
      subst hc
      exact epStep_paren _ _ u (epLoop_fin _ _ (epFin_isSome u (headDig_of_digRun u hr)))

theorem epCap_isSome (s : Str) (h : epSearch s = true) : (epCap s).isSome = true :=
  scanFirst_isSome_of epAt _ epAt_isSome s h

theorem anySuf_of_mem_dig (s : Str) (c : Char) (hc : isDig c = true) (hm : c ∈ s) :
    anySuf headDig s = true := by
  induction s with
  | nil => cases hm
  | cons a u ih =>
    simp only [anySuf, Bool.or_eq_true]
    rcases List.mem_cons.mp hm with rfl | hmem
    · exact Or.inl (by simpa [headDig] using hc)
    · exact Or.inr (ih hmem)

theorem bareSearch_mem (s : Str) (h : bareSearch s = true) : ∃ c, c ∈ s ∧ isDig c = true := by
  simp only [bareSearch, Bool.and_eq_true, decide_eq_true_eq] at h
  obtain ⟨⟨h1, -⟩, -⟩ := h
  obtain ⟨c0, hc0⟩ :
      ∃ c0, c0 ∈ (s.drop ((s.takeWhile (fun c => !isDig c)).length)).takeWhile isDig := by
    cases hk : (s.drop ((s.takeWhile (fun c => !isDig c)).length)).takeWhile isDig with
    | nil => rw [hk] at h1; simp at h1
    | cons x xs => exact ⟨x, List.mem_cons_self x xs⟩
  have hmd : c0 ∈ s.drop ((s.takeWhile (fun c => !isDig c)).length) :=
    List.takeWhile_subset _ hc0
  exact ⟨c0, List.drop_subset _ _ hmd, List.mem_takeWhile_imp hc0⟩

theorem bAt_head (t : Str) (h : headDig t = true) : (bAt t).isSome = true := by
  cases t with
  | nil => simp [headDig] at h
  | cons c u =>
    simp only [headDig] at h
    simp [bAt, h]

theorem bareCap_isSome (s : Str) (h : bareSearch s = true) : (bareCap s).isSome = true := by
  obtain ⟨c, hm, hc⟩ := bareSearch_mem s h
  exact scanFirst_isSome_of bAt headDig bAt_head s (anySuf_of_mem_dig s c hc hm)

theorem get_digRun (v : Str) (k : Nat) (h : k < digRun v) :
    ∃ c, v.get? k = some c ∧ isDig c = true := by
  induction v generalizing k with
  | nil => simp [digRun, List.takeWhile] at h
  | cons a u ih =>
    by_cases ha : isDig a = true
    · cases k with
      | zero => exact ⟨a, rfl, ha⟩
      | succ k =>
        simp only [digRun, List.takeWhile_cons, ha, if_true, List.length_cons] at h
        exact ih k (by simpa [digRun] using Nat.lt_of_succ_lt_succ h)
    · simp [digRun, List.takeWhile_cons, ha] at h

theorem headDig_of_get (t : Str) (n : Nat) (c : Char) (hg : t.get? n = some c)
    (hc : isDig c = true) : headDig (t.drop n) = true := by
  have h0 : (t.drop n).get? 0 = some c := by rw [List.get?_drop]; simpa using hg
  cases hdn : t.drop n with
  | nil => rw [hdn] at h0; simp at h0
  | cons x xs =>
    rw [hdn] at h0
    simp only [List.get?_cons_zero, Option.some.injEq] at h0
    subst h0
    simpa [headDig] using hc

theorem rKs_hit (r : Nat) (v : Str) (h1 : 1 ≤ r)
    (hd : v.get? r = some '-' ∨ v.get? r = some '+') :
    rKs r v = some (v.take r, v.drop (r + 1)) := by
  cases r with
  | zero => omega
  | succ k =>
    simp only [rKs]
    rw [if_pos hd]
    rfl

theorem rFinTwo_head (t : Str) (h : headDig t = true) : (rFinTwo t).isSome = true := by
  cases t with
  | nil => simp [headDig] at h
  | cons c u =>
    simp only [headDig] at h
    simp [rFinTwo, h]

theorem rAt_isSome (c : Char) (u : Str) (hdig : isDig c = true) (hcore : rCore (c :: u) = true) :
    (rAt (c :: u)).isSome = true := by
  simp only [rCore, Bool.and_eq_true, decide_eq_true_eq] at hcore
  obtain ⟨⟨⟨h1, h4⟩, hdash⟩, hnext⟩ := hcore
  obtain ⟨c2, hget, hc2⟩ :
      ∃ c2, (c :: u).get? (digRun (c :: u) + 1) = some c2 ∧ isDig c2 = true := by
    cases hg : (c :: u).get? (digRun (c :: u) + 1) with
    | none => rw [hg] at hnext; simp at hnext
    | some x => rw [hg] at hnext; exact ⟨x, rfl, hnext⟩
  simp only [rAt, isSome_orElse, Bool.or_eq_true]
  refine Or.inr ?_
  rw [if_pos hdig]
  have hmin : min 4 (digRun (c :: u)) = digRun (c :: u) := by omega
  simp only [rTryFrom, hmin, rKs_hit _ _ h1 hdash, Option.some_bind]
  have hfin := rFinTwo_head _ (headDig_of_get _ _ _ hget hc2)
  cases hf : rFinTwo ((c :: u).drop (digRun (c :: u) + 1)) with
  | none => rw [hf] at hfin; simp at hfin
  | some n1 => rfl

theorem rangeCap_isSome (s : Str) (h : rangeSearch s = true) : (rangeCap s).isSome = true := by
  cases s with
  | nil => simp [rangeSearch] at h
  | cons c u =>
    simp only [rangeSearch] at h
    by_cases hc : isDig c = true
    · rw [if_pos hc] at h
      simp only [rangeCap, scanFirst, isSome_orElse, Bool.or_eq_true]
      exact Or.inl (rAt_isSome c u hc h)
    · rw [if_neg (by simpa using hc)] at h
      have h' := h
      simp only [rCore, Bool.and_eq_true, decide_eq_true_eq] at h'
      have hr1 : 1 ≤ digRun u := h'.1.1.1
      obtain ⟨c2, hg2, hd2⟩ := get_digRun u 0 (by omega)
      cases u with
      | nil => simp at hg2
      | cons x xs =>
        simp only [List.get?_cons_zero, Option.some.injEq] at hg2
        subst hg2
        simp only [rangeCap, scanFirst, isSome_orElse, Bool.or_eq_true]
        exact Or.inr (Or.inl (rAt_isSome _ xs hd2 h))

theorem dTok_ok (part e : Str) : ∃ x, dTok part e = Except.ok x := by
  unfold dTok
  by_cases h : dateSearch e = true
  · obtain ⟨w, hw⟩ := Option.isSome_iff_exists.mp (dateCap_isSome e h)
    rw [if_pos h, hw]
    exact ⟨_, rfl⟩
  · rw [if_neg h]
    exact ⟨_, rfl⟩

theorem nTok_ok (part e : Str) : ∃ x, nTok part e = Except.ok x := by
  unfold nTok
  by_cases h1 : epSearch e = true
  · obtain ⟨ds, hds⟩ := Option.isSome_iff_exists.mp (epCap_isSome e h1)
    rw [if_pos h1, hds]
    exact ⟨_, rfl⟩
  · rw [if_neg h1]
    by_cases h2 : bareSearch e = true
    · obtain ⟨ds, hds⟩ := Option.isSome_iff_exists.mp (bareCap_isSome e h2)
      rw [if_pos h2, hds]
      exact ⟨_, rfl⟩
    · rw [if_neg h2]
      by_cases h3 : rangeSearch e = true
      · obtain ⟨z, hz⟩ := Option.isSome_iff_exists.mp (rangeCap_isSome e h3)
        rw [if_pos h3, hz]
        exact ⟨_, rfl⟩
      · rw [if_neg h3]
        exact ⟨_, rfl⟩

theorem segToks_ok (part e : Str) : ∃ x, segToks part e = Except.ok x ∧ x ≠ [] := by
  obtain ⟨x1, h1⟩ := dTok_ok part e
  obtain ⟨x2, h2⟩ := nTok_ok part e
  unfold segToks
  rw [h1, h2]
  refine ⟨_, rfl, ?_⟩
  by_cases hx : x1 ++ x2 ++ (if resSearch e then [(⟨Val.str resStr, part, 'r'⟩ : Tok)] else []) = []
  · rw [if_pos hx]
    simp
  · rw [if_neg hx]
    exact hx

theorem splitSp_ne_nil (s : Str) : splitSp s ≠ [] := by
  cases s with
  | nil => simp [splitSp]
  | cons c u =>
    unfold splitSp
    by_cases h : c = ' '
    · simp [h]
    · rw [if_neg h]
      cases splitSp u <;> simp

theorem segsToks_ok (part : Str) (segs : List Str) :
    ∃ l, segsToks part segs = Except.ok l ∧ (segs ≠ [] → l ≠ []) := by
  induction segs with
  | nil => exact ⟨[], rfl, by simp⟩
  | cons e r ih =>
    obtain ⟨x, hx, hxne⟩ := segToks_ok part e
    obtain ⟨l2, hl2, -⟩ := ih
    refine ⟨x ++ l2, ?_, fun _ => by simp [hxne]⟩
    unfold segsToks
    rw [hx, hl2]
    rfl

theorem mem_insTok (t' t : Tok) (l : List Tok) : t' ∈ insTok t l ↔ t' = t ∨ t' ∈ l := by
  induction l with
  | nil => simp [insTok]
  | cons h r ih =>
    unfold insTok
    split
    · simp only [List.mem_cons, ih]
      tauto
    · simp only [List.mem_cons]

theorem mem_sortToks_aux (l : List Tok) (acc : List Tok) (t' : Tok) :
    t' ∈ l.foldl (fun acc t => insTok t acc) acc ↔ t' ∈ acc ∨ t' ∈ l := by
  induction l generalizing acc with
  | nil => simp
  | cons h r ih =>
    simp only [List.foldl_cons, ih, mem_insTok, List.mem_cons]
    tauto

theorem mem_sortToks (t' : Tok) (l : List Tok) : t' ∈ sortToks l ↔ t' ∈ l := by
  simp [sortToks, mem_sortToks_aux]

theorem length_insTok (t : Tok) (l : List Tok) : (insTok t l).length = l.length + 1 := by
  induction l with
  | nil => rfl
  | cons h r ih =>
    unfold insTok
    split
    · simp [ih]
    · simp

theorem length_sortToks_aux (l acc : List Tok) :
    (l.foldl (fun acc t => insTok t acc) acc).length = acc.length + l.length := by
  induction l generalizing acc with
  | nil => simp
  | cons h r ih =>
    simp only [List.foldl_cons, ih, length_insTok, List.length_cons]
    omega

theorem length_sortToks (l : List Tok) : (sortToks l).length = l.length := by
  simp [sortToks, length_sortToks_aux]

theorem insTok_sorted (t : Tok) (l : List Tok)
    (h : l.Pairwise (fun a b => a.tag ≤ b.tag)) :
    (insTok t l).Pairwise (fun a b => a.tag ≤ b.tag) := by
  induction l with
  | nil => simp [insTok]
  | cons a r ih =>
    rcases List.pairwise_cons.mp h with ⟨ha, hr⟩
    unfold insTok
    split
    · next hle =>
      refine List.pairwise_cons.mpr ⟨?_, ih hr⟩
      intro b hb
      rcases (mem_insTok b t r).mp hb with rfl | hbr
      · exact hle
      · exact ha b hbr
    · next hgt =>
      refine List.pairwise_cons.mpr ⟨?_, h⟩
      intro b hb
      rcases List.mem_cons.mp hb with rfl | hbr
      · exact le_of_not_le hgt
      · exact le_trans (le_of_not_le hgt) (ha b hbr)

theorem sortToks_sorted_aux (l acc : List Tok)
    (hacc : acc.Pairwise (fun a b => a.tag ≤ b.tag)) :
    (l.foldl (fun acc t => insTok t acc) acc).Pairwise (fun a b => a.tag ≤ b.tag) := by
  induction l generalizing acc with
  | nil => simpa
  | cons h r ih => exact ih _ (insTok_sorted h acc hacc)

theorem sortToks_sorted (l : List Tok) :
    (sortToks l).Pairwise (fun a b => a.tag ≤ b.tag) :=
  sortToks_sorted_aux l [] List.Pairwise.nil

theorem parseEpisode_ok (s : Str) : ∃ l, parseEpisode s = Except.ok l ∧ l ≠ [] := by
  obtain ⟨l, hl, hne⟩ := segsToks_ok (partOf (normEp s)) (splitSp (normEp s))
  refine ⟨sortToks l, ?_, ?_⟩
  · show Except.map sortToks (segsToks (partOf (normEp s)) (splitSp (normEp s)))
      = Except.ok (sortToks l)
    rw [hl]
    rfl
  · have hlne := hne (splitSp_ne_nil _)
    intro hcon
    have hlen := length_sortToks l
    rw [hcon] at hlen
    simp only [List.length_nil] at hlen
    exact hlne (List.length_eq_zero.mp hlen.symm)

theorem parseToks_eq (s : Str) : parseEpisode s = Except.ok (parseToks s) := by
  obtain ⟨l, hl, -⟩ := parseEpisode_ok s
  unfold parseToks
  rw [hl]

theorem dTok_part (part e : Str) (x : List Tok) (hx : dTok part e = Except.ok x) :
    ∀ t, t ∈ x → t.part = part := by
  unfold dTok at hx
  split at hx
  · split at hx
    · cases hx
      intro t ht
      rw [List.mem_singleton] at ht
      subst ht
      rfl
    · cases hx
  · cases hx
    intro t ht
    cases ht

theorem nTok_part (part e : Str) (x : List Tok) (hx : nTok part e = Except.ok x) :
    ∀ t, t ∈ x → t.part = part := by
  unfold nTok at hx
  split at hx
  · split at hx
    · cases hx
      intro t ht
      rw [List.mem_singleton] at ht
      subst ht
      rfl
    · cases hx
  · split at hx
    · split at hx
      · cases hx
        intro t ht
        rw [List.mem_singleton] at ht
        subst ht
        rfl
      · cases hx
    · split at hx
      · split at hx
        · cases hx
          intro t ht
          rw [List.mem_singleton] at ht
          subst ht
          rfl
        · cases hx
      · cases hx
        intro t ht
        cases ht

theorem segToks_part (part e : Str) (x : List Tok) (hx : segToks part e = Except.ok x) :
    ∀ t, t ∈ x → t.part = part := by
  obtain ⟨x1, h1⟩ := dTok_ok part e
  obtain ⟨x2, h2⟩ := nTok_ok part e
  unfold segToks at hx
  rw [h1, h2] at hx
  simp only [Except.bind] at hx
  cases hx
  intro t ht
  by_cases hr :
      x1 ++ x2 ++ (if resSearch e then [(⟨Val.str resStr, part, 'r'⟩ : Tok)] else []) = []
  · rw [if_pos hr, List.mem_singleton] at ht
    subst ht
    rfl
  · rw [if_neg hr] at ht
    rcases List.mem_append.mp ht with hta | htr
    · rcases List.mem_append.mp hta with ht1 | ht2
      · exact dTok_part part e x1 h1 t ht1
      · exact nTok_part part e x2 h2 t ht2
    · by_cases hres : resSearch e = true
      · rw [if_pos hres, List.mem_singleton] at htr
        subst htr
        rfl
      · rw [if_neg hres] at htr
        cases htr

/-! ## Reconciler lemmas -/

/-- The exact-match list `z` is the entries (with the source name appended)
not already in `src` whose parsed token list contains the reference token, and
the near-match list `d` is the entries passing the (total view of the)
near-match test — in list order. -/
theorem perLinks_spec (e : Tok) (lsrc : Str) (src : List Entry3) :
    ∀ (ys : List (Str × Str)) (z d : List Entry3),
      perLinks e lsrc src ys = Except.ok (z, d) →
      z = (ys.map (fun y => (y.1, y.2, lsrc))).filter
            (fun y' => decide (y' ∉ src ∧ e ∈ parseToks y'.2.1)) ∧
      d = (ys.map (fun y => (y.1, y.2, lsrc))).filter
            (fun y' => nearT e (parseToks y'.2.1)) := by
  intro ys
  induction ys with
  | nil =>
    intro z d h
    cases h
    simp
  | cons y rest ih =>
    intro z d h
    unfold perLinks at h
    rw [parseToks_eq y.2] at h
    simp only [Except.bind] at h
    cases hb : nearB e (parseToks y.2) with
    | error u => rw [hb] at h; cases h
    | ok b =>
      rw [hb] at h
      cases hrest : perLinks e lsrc src rest with
      | error u => rw [hrest] at h; cases h
      | ok zd2 =>
        rw [hrest] at h
        obtain ⟨hz2, hd2⟩ := ih zd2.1 zd2.2 (by rw [hrest])
        cases h
        constructor
        · rw [List.map_cons, List.filter_cons]
          by_cases hc : ((y.1, y.2, lsrc) : Entry3) ∉ src ∧ e ∈ parseToks y.2
          · rw [if_pos hc, if_pos (by simpa using hc)]
            rw [hz2]
            rfl
          · rw [if_neg hc, if_neg (by simpa using hc)]
            rw [hz2]
            rfl
        · rw [List.map_cons, List.filter_cons]
          have hnt : nearT e (parseToks y.2) = b := by
            unfold nearT
            rw [hb]
          cases b with
          | true => simp [hnt, hd2]
          | false => simp [hnt, hd2]

/-- Both candidate lists only hold entries of the scanned group, with the
group's source name in the third position. -/
theorem perLinks_sub (e : Tok) (lsrc : Str) (src : List Entry3) (ys : List (Str × Str))
    (z d : List Entry3) (h : perLinks e lsrc src ys = Except.ok (z, d)) :
    ∀ y', y' ∈ z ∨ y' ∈ d → y'.2.2 = lsrc ∧ (y'.1, y'.2.1) ∈ ys := by
  obtain ⟨hz, hd⟩ := perLinks_spec e lsrc src ys z d h
  intro y' hy'
  have hmem : y' ∈ ys.map (fun y => (y.1, y.2, lsrc)) := by
    rcases hy' with hy' | hy'
    · exact List.mem_of_mem_filter (hz ▸ hy')
    · exact List.mem_of_mem_filter (hd ▸ hy')
  obtain ⟨y, hyin, hyeq⟩ := List.mem_map.mp hmem
  subst hyeq
  exact ⟨rfl, hyin⟩

/-- The per-token update appends at most one entry, drawn from `z` or `d`. -/
theorem perToks_inv (lsrc : Str) (ys : List (Str × Str)) :
    ∀ (toks : List Tok) (src out : List Entry3),
      perToks lsrc ys toks src = Except.ok out →
      ∀ y', y' ∈ out → y' ∈ src ∨ (y'.2.2 = lsrc ∧ (y'.1, y'.2.1) ∈ ys) := by
  intro toks
  induction toks with
  | nil =>
    intro src out h
    cases h
    exact fun y' hy => Or.inl hy
  | cons e rest ih =>
    intro src out h
    unfold perToks at h
    cases hpl : perLinks e lsrc src ys with
    | error u => rw [hpl] at h; cases h
    | ok zd =>
      rw [hpl] at h
      simp only [Except.bind] at h
      intro y' hy
      rcases ih _ _ h y' hy with hsrc' | hnew
      · -- y' came from src extended by the decision rule
        have hstep : y' ∈ src ∨ y' ∈ zd.1 ∨ y' ∈ zd.2 := by
          revert hsrc'
          rcases hz1 : zd.1 with - | ⟨a, - | ⟨b, t⟩⟩
          · rcases hz2 : zd.2 with - | ⟨a2, - | ⟨b2, t2⟩⟩
            · intro hsrc'; exact Or.inl hsrc'
            · intro hsrc'
              rcases List.mem_append.mp hsrc' with hs | hs
              · exact Or.inl hs
              · exact Or.inr (Or.inr (by simpa using hs))
            · intro hsrc'; exact Or.inl hsrc'
          · intro hsrc'
            rcases List.mem_append.mp hsrc' with hs | hs
            · exact Or.inl hs
            · exact Or.inr (Or.inl (by simpa using hs))
          · intro hsrc'; exact Or.inl hsrc'
        rcases hstep with hs | hs
        · exact Or.inl hs
        · exact Or.inr (perLinks_sub e lsrc src ys zd.1 zd.2 (by rw [hpl]) y' hs)
      · exact Or.inr hnew

/-- Everything the reconciler returns comes from a group other than the
current source, tagged with that group's name and drawn from its entry list. -/
theorem perGroups_inv (episode current : Str) :
    ∀ (links : List Group) (src out : List Entry3),
      perGroups episode current links src = Except.ok out →
      ∀ y', y' ∈ out → y' ∈ src ∨
        ∃ g, g ∈ links ∧ g.source ≠ current ∧ y'.2.2 = g.source ∧ (y'.1, y'.2.1) ∈ g.links := by
  intro links
  induction links with
  | nil =>
    intro src out h
    cases h
    exact fun y' hy => Or.inl hy
  | cons g rest ih =>
    intro src out h
    unfold perGroups at h
    by_cases hg : g.source ≠ current
    · rw [if_pos hg, parseToks_eq episode] at h
      simp only [Except.bind] at h
      cases hpt : perToks g.source g.links (parseToks episode) src with
      | error u => rw [hpt] at h; cases h
      | ok src' =>
        rw [hpt] at h
        simp only [Except.bind] at h
        intro y' hy
        rcases ih _ _ h y' hy with hsrc' | ⟨g2, hg2, hprop⟩
        · rcases perToks_inv g.source g.links (parseToks episode) src src' hpt y' hsrc'
            with hsrc | hnew
          · exact Or.inl hsrc
          · exact Or.inr ⟨g, List.mem_cons_self g rest, hg, hnew.1, hnew.2⟩
        · exact Or.inr ⟨g2, List.mem_cons_of_mem g hg2, hprop⟩
    · rw [if_neg hg] at h
      intro y' hy
      rcases ih _ _ h y' hy with hsrc | ⟨g2, hg2, hprop⟩
      · exact Or.inl hsrc
      · exact Or.inr ⟨g2, List.mem_cons_of_mem g hg2, hprop⟩

/-! ### Exception freedom under valid dates -/

theorem strp_sentinel : strpYmd sentinelD = some (2050, 1, 1) := by decide

theorem nearB_ok (e : Tok) (ep : List Tok)
    (he : e.tag = 'd' → (strpYmd (valS e.val)).isSome = true)
    (hep : ∀ t, t ∈ ep → t.tag = 'd' → (strpYmd (valS t.val)).isSome = true) :
    ∃ b, nearB e ep = Except.ok b := by
  unfold nearB
  by_cases ht : e.tag = 'd'
  · rw [if_pos ht]
    obtain ⟨d1, hd1⟩ := Option.isSome_iff_exists.mp (he ht)
    rw [hd1]
    have hcand : (strpYmd (valS (firstCand e ep))).isSome = true := by
      unfold firstCand
      cases hf : ep.filter (fun x => decide (x.part = e.part ∧ x.tag = 'd')) with
      | nil => simp [strp_sentinel, valS]
      | cons x rest =>
        have hx : x ∈ ep.filter (fun x => decide (x.part = e.part ∧ x.tag = 'd')) := by
          rw [hf]
          exact List.mem_cons_self x rest
        obtain ⟨hxe, hxp⟩ := List.mem_filter.mp hx
        exact hep x hxe (of_decide_eq_true hxp).2
    obtain ⟨d2, hd2⟩ := Option.isSome_iff_exists.mp hcand
    rw [hd2]
    exact ⟨_, rfl⟩
  · rw [if_neg ht]
    exact ⟨false, rfl⟩

theorem perLinks_ok (e : Tok) (lsrc : Str) (src : List Entry3)
    (he : e.tag = 'd' → (strpYmd (valS e.val)).isSome = true) :
    ∀ ys : List (Str × Str), (∀ y, y ∈ ys → datesValid y.2) →
      ∃ zd, perLinks e lsrc src ys = Except.ok zd := by
  intro ys
  induction ys with
  | nil => exact fun _ => ⟨([], []), rfl⟩
  | cons y rest ih =>
    intro hval
    obtain ⟨zd2, hzd2⟩ := ih (fun y2 hy2 => hval y2 (List.mem_cons_of_mem y hy2))
    obtain ⟨b, hb⟩ := nearB_ok e (parseToks y.2) he (hval y (List.mem_cons_self y rest))
    cases hres : perLinks e lsrc src (y :: rest) with
    | ok zd => exact ⟨zd, rfl⟩
    | error u =>
      exfalso
      unfold perLinks at hres
      rw [parseToks_eq y.2] at hres
      simp only [Except.bind] at hres
      rw [hb, hzd2] at hres
      cases hres

theorem perToks_ok (lsrc : Str) (ys : List (Str × Str)) (hys : ∀ y, y ∈ ys → datesValid y.2) :
    ∀ (toks : List Tok) (src : List Entry3),
      (∀ e, e ∈ toks → e.tag = 'd' → (strpYmd (valS e.val)).isSome = true) →
      ∃ out, perToks lsrc ys toks src = Except.ok out := by
  intro toks
  induction toks with
  | nil => exact fun src _ => ⟨src, rfl⟩
  | cons e rest ih =>
    intro src htoks
    obtain ⟨zd, hzd⟩ := perLinks_ok e lsrc src (htoks e (List.mem_cons_self e rest)) ys hys
    obtain ⟨out, hout⟩ := ih _ (fun e2 he2 => htoks e2 (List.mem_cons_of_mem e he2))
    refine ⟨out, ?_⟩
    unfold perToks
    rw [hzd]
    simp only [Except.bind]
    exact hout

theorem perGroups_ok (episode current : Str) (hep : datesValid episode) :
    ∀ (links : List Group) (src : List Entry3),
      (∀ g, g ∈ links → ∀ y, y ∈ g.links → datesValid y.2) →
      ∃ out, perGroups episode current links src = Except.ok out := by
  intro links
  induction links with
  | nil => exact fun src _ => ⟨src, rfl⟩
  | cons g rest ih =>
    intro src hval
    by_cases hg : g.source ≠ current
    · obtain ⟨src', hsrc'⟩ := perToks_ok g.source g.links (hval g (List.mem_cons_self g rest))
        (parseToks episode) src hep
      obtain ⟨out, hout⟩ := ih src' (fun g2 hg2 => hval g2 (List.mem_cons_of_mem g hg2))
      refine ⟨out, ?_⟩
      unfold perGroups
      rw [if_pos hg, parseToks_eq episode]
      simp only [Except.bind]
      rw [hsrc']
      simp only [Except.bind]
      exact hout
    · obtain ⟨out, hout⟩ := ih src (fun g2 hg2 => hval g2 (List.mem_cons_of_mem g hg2))
      refine ⟨out, ?_⟩
      unfold perGroups
      rw [if_neg hg]
      exact hout

/-! ### The near-match test, characterised -/

theorem nearB_iff (e : Tok) (ep : List Tok) (b : Bool) (h : nearB e ep = Except.ok b)
    (ht : e.tag = 'd') :
    b = true ↔ ∃ d1 d2, strpYmd (valS e.val) = some d1 ∧
      strpYmd (valS (firstCand e ep)) = some d2 ∧
      ((ordD d1 : ℤ) - ordD d2).natAbs = 1 := by
  unfold nearB at h
  rw [if_pos ht] at h
  cases h1 : strpYmd (valS e.val) with
  | none => rw [h1] at h; cases h
  | some d1 =>
    rw [h1] at h
    cases h2 : strpYmd (valS (firstCand e ep)) with
    | none => rw [h2] at h; cases h
    | some d2 =>
      rw [h2] at h
      cases h
      constructor
      · intro hb
        exact ⟨d1, d2, rfl, rfl, of_decide_eq_true hb⟩
      · rintro ⟨d1', d2', hd1', hd2', habs⟩
        cases hd1'
        cases hd2'
        exact decide_eq_true habs

theorem nearB_far (e : Tok) (ep : List Tok) (b : Bool) (d1 d2 : Nat × Nat × Nat)
    (h : nearB e ep = Except.ok b) (h1 : strpYmd (valS e.val) = some d1)
    (h2 : strpYmd (valS (firstCand e ep)) = some d2)
    (hfar : 2 ≤ ((ordD d1 : ℤ) - ordD d2).natAbs) : b = false := by
  by_cases ht : e.tag = 'd'
  · unfold nearB at h
    rw [if_pos ht, h1, h2] at h
    cases h
    simp only [decide_eq_false_iff_not]
    omega
  · unfold nearB at h
    rw [if_neg ht] at h
    cases h
    rfl

/-! ### Calendar arithmetic around the sentinel date -/

theorem dv_bounds (c : Char) (h : isDig c = true) : 48 ≤ c.toNat ∧ c.toNat ≤ 57 := by
  simpa [isDig] using h

/-- A parsed date has a year in 1969–2068 (the `%y` pivot), a real month, and
a day that exists in that month. -/
theorem strp_shape (s : Str) (y m d : Nat) (h : strpYmd s = some (y, m, d)) :
    ((1969 ≤ y ∧ y ≤ 1999) ∨ (2000 ≤ y ∧ y ≤ 2068)) ∧
      1 ≤ m ∧ m ≤ 12 ∧ 1 ≤ d ∧ d ≤ mdays y m := by
  unfold strpYmd at h
  split at h
  · next a b c d' e f =>
    dsimp only [] at h
    split at h
    · next hdig =>
      have hab := dv_bounds a hdig.1
      have hbb := dv_bounds b hdig.2.1
      by_cases hyy : dv a * 10 + dv b ≤ 68
      · rw [if_pos hyy] at h
        split at h
        · next hv =>
          cases h
          refine ⟨Or.inr ?_, hv.1, hv.2.1, hv.2.2.1, hv.2.2.2⟩
          unfold dv at hyy ⊢
          omega
        · cases h
      · rw [if_neg hyy] at h
        split at h
        · next hv =>
          cases h
          refine ⟨Or.inl ?_, hv.1, hv.2.1, hv.2.2.1, hv.2.2.2⟩
          unfold dv at hyy ⊢
          omega
        · cases h
    · cases h
  · cases h

theorem dBeforeY_mono (a b : Nat) (h : a ≤ b) : dBeforeY a ≤ dBeforeY b := by
  unfold dBeforeY
  have e1 := Nat.div_add_mod (a - 1) 100
  have e2 := Nat.div_add_mod (b - 1) 100
  have m1 := Nat.mod_lt (a - 1) (show 0 < 100 by norm_num)
  have m2 := Nat.mod_lt (b - 1) (show 0 < 100 by norm_num)
  have h4 : (a - 1) / 4 ≤ (b - 1) / 4 := Nat.div_le_div_right (by omega)
  have h400 : (a - 1) / 400 ≤ (b - 1) / 400 := Nat.div_le_div_right (by omega)
  have h100 : (a - 1) / 100 ≤ (b - 1) / 100 := Nat.div_le_div_right (by omega)
  omega

theorem mdays_le (y m : Nat) : mdays y m ≤ 31 := by
  unfold mdays
  split <;> first | omega | (split <;> omega)

theorem adj49 : ∀ m : Fin 13, ∀ d : Fin 32, 1 ≤ m.val → 1 ≤ d.val →
    (748017 + dBeforeM 2049 m.val + d.val = 748382 ∨
      748017 + dBeforeM 2049 m.val + d.val = 748384) →
    m.val = 12 ∧ d.val = 31 := by decide

theorem adj50 : ∀ m : Fin 13, ∀ d : Fin 32, 1 ≤ m.val → 1 ≤ d.val →
    (748382 + dBeforeM 2050 m.val + d.val = 748382 ∨
      748382 + dBeforeM 2050 m.val + d.val = 748384) →
    m.val = 1 ∧ d.val = 2 := by decide

theorem dBeforeM_le (y m : Nat) (hm : m ≤ 12) (hl : isLeap y = false) :
    dBeforeM y m ≤ 335 := by
  interval_cases m <;> simp [dBeforeM, mdays, hl]

theorem dBeforeM_le' (y m : Nat) (hm : m ≤ 12) (hl : isLeap y = true) :
    dBeforeM y m ≤ 335 := by
  interval_cases m <;> simp [dBeforeM, mdays, hl]

/-- The only valid dates in 1969–2068 one day away from 2050-01-01 (ordinal
748383) are 2049-12-31 and 2050-01-02. -/
theorem ordD_adj (y m d : Nat)
    (hy : (1969 ≤ y ∧ y ≤ 1999) ∨ (2000 ≤ y ∧ y ≤ 2068))
    (hm : 1 ≤ m ∧ m ≤ 12) (hd : 1 ≤ d ∧ d ≤ mdays y m)
    (h : ordD (y, m, d) = 748382 ∨ ordD (y, m, d) = 748384) :
    (y = 2049 ∧ m = 12 ∧ d = 31) ∨ (y = 2050 ∧ m = 1 ∧ d = 2) := by
  simp only [ordD] at h
  have hd31 : d ≤ 31 := le_trans hd.2 (mdays_le y m)
  have hbm : dBeforeM y m ≤ 335 := by
    cases hl : isLeap y with
    | false => exact dBeforeM_le y m hm.2 hl
    | true => exact dBeforeM_le' y m hm.2 hl
  by_cases h48 : y ≤ 2048
  · exfalso
    have hmono : dBeforeY y ≤ dBeforeY 2048 := dBeforeY_mono y 2048 h48
    have h2048 : dBeforeY 2048 = 747651 := by decide
    omega
  · by_cases h51 : 2051 ≤ y
    · exfalso
      have hmono : dBeforeY 2051 ≤ dBeforeY y := dBeforeY_mono 2051 y h51
      have h2051 : dBeforeY 2051 = 748747 := by decide
      omega
    · have hy2 : y = 2049 ∨ y = 2050 := by omega
      rcases hy2 with rfl | rfl
      · left
        have h49 : dBeforeY 2049 = 748017 := by decide
        rw [h49] at h
        obtain ⟨hm12, hd31'⟩ := adj49 ⟨m, by omega⟩ ⟨d, by omega⟩ hm.1 hd.1 h
        exact ⟨rfl, hm12, hd31'⟩
      · right
        have h50 : dBeforeY 2050 = 748382 := by decide
        rw [h50] at h
        obtain ⟨hm1, hd2⟩ := adj50 ⟨m, by omega⟩ ⟨d, by omega⟩ hm.1 hd.1 h
        exact ⟨rfl, hm1, hd2⟩

/-- When the candidate has no date token with the reference part, the
near-match test compares against the sentinel `500101` (2050-01-01); it can
only fire for references 2049-12-31 or 2050-01-02. -/
theorem nearB_sentinel (e : Tok) (ep : List Tok) (b : Bool) (dd : Nat × Nat × Nat)
    (h : nearB e ep = Except.ok b) (ht : e.tag = 'd')
    (hnone : ep.filter (fun x => decide (x.part = e.part ∧ x.tag = 'd')) = [])
    (hdd : strpYmd (valS e.val) = some dd)
    (h1 : dd ≠ (2049, 12, 31)) (h2 : dd ≠ (2050, 1, 2)) : b = false := by
  have hcand : firstCand e ep = Val.str sentinelD := by
    unfold firstCand
    rw [hnone]
  unfold nearB at h
  rw [if_pos ht, hdd, hcand] at h
  simp only [valS, strp_sentinel] at h
  cases h
  simp only [decide_eq_false_iff_not]
  intro habs
  obtain ⟨y, m, d⟩ := dd
  have hsh := strp_shape _ _ _ _ hdd
  have hK : ordD (2050, 1, 1) = 748383 := by decide
  have hcases : ordD (y, m, d) = 748382 ∨ ordD (y, m, d) = 748384 := by
    rw [hK] at habs
    omega
  rcases ordD_adj y m d hsh.1 ⟨hsh.2.1, hsh.2.2.1⟩ ⟨hsh.2.2.2.1, hsh.2.2.2.2⟩ hcases
    with ⟨rfl, rfl, rfl⟩ | ⟨rfl, rfl, rfl⟩
  · exact h1 rfl
  · exact h2 rfl

/-! ### The state-passing rendition agrees with the plain one -/

theorem perLinksT_eq (e : Tok) (lsrc : Str) (src : List Entry3) :
    ∀ (ys : List (Str × Str)) (st : List Group),
      perLinksT e lsrc src ys st = (perLinks e lsrc src ys, st) := by
  intro ys
  induction ys with
  | nil => intro st; rfl
  | cons y rest ih =>
    intro st
    unfold perLinksT perLinks
    cases hp : parseEpisode y.2 with
    | error u => simp [Except.bind, hp]
    | ok ep =>
      cases hb : nearB e ep with
      | error u => simp [Except.bind, hp, hb]
      | ok b =>
        rw [ih st]
        cases hr : perLinks e lsrc src rest with
        | error u => simp [Except.bind, hp, hb, hr]
        | ok zd => simp [Except.bind, hp, hb, hr]

theorem perToksT_eq (lsrc : Str) (ys : List (Str × Str)) :
    ∀ (toks : List Tok) (src : List Entry3) (st : List Group),
      perToksT lsrc ys toks src st = (perToks lsrc ys toks src, st) := by
  intro toks
  induction toks with
  | nil => intro src st; rfl
  | cons e rest ih =>
    intro src st
    unfold perToksT perToks
    rw [perLinksT_eq]
    cases hl : perLinks e lsrc src ys with
    | error u => simp [Except.bind, hl]
    | ok zd => simp [Except.bind, hl, ih]

theorem perGroupsT_eq (episode current : Str) :
    ∀ (links : List Group) (src : List Entry3) (st : List Group),
      perGroupsT episode current links src st = (perGroups episode current links src, st) := by
  intro links
  induction links with
  | nil => intro src st; rfl
  | cons g rest ih =>
    intro src st
    unfold perGroupsT perGroups
    by_cases hg : g.source ≠ current
    · rw [if_pos hg, if_pos hg]
      cases hpe : parseEpisode episode with
      | error u => simp [Except.bind, hpe]
      | ok toks =>
        dsimp only
        rw [perToksT_eq]
        cases hp : perToks g.source g.links toks src with
        | error u => simp [Except.bind, hpe, hp]
        | ok src' => simp [Except.bind, hpe, hp, ih]
    · rw [if_neg hg, if_neg hg]
      exact ih src st

/-! ### Helpers: literal fallback, membership through the pipeline -/

theorem segToks_lit (part e : Str) (h1 : dateSearch e = false) (h2 : epSearch e = false)
    (h3 : bareSearch e = false) (h4 : rangeSearch e = false) (h5 : resSearch e = false) :
    segToks part e = Except.ok [⟨Val.str e, part, 'n'⟩] := by
  unfold segToks dTok nTok
  rw [if_neg (by simp [h1]), if_neg (by simp [h2]), if_neg (by simp [h3]),
    if_neg (by simp [h4])]
  simp [Except.bind, h5]

theorem segsToks_mem (part : Str) :
    ∀ (segs : List Str) (L : List Tok), segsToks part segs = Except.ok L →
      ∀ e, e ∈ segs → ∀ x, segToks part e = Except.ok x → ∀ t, t ∈ x → t ∈ L := by
  intro segs
  induction segs with
  | nil =>
    intro L h e he
    cases he
  | cons e0 r ih =>
    intro L h e he x hx t ht
    unfold segsToks at h
    cases h0 : segToks part e0 with
    | error u => rw [h0] at h; cases h
    | ok x0 =>
      rw [h0] at h
      cases hr : segsToks part r with
      | error u => rw [hr] at h; cases h
      | ok L0 =>
        rw [hr] at h
        simp only [Except.bind] at h
        cases h
        rcases List.mem_cons.mp he with rfl | hmem
        · rw [h0] at hx
          cases hx
          exact List.mem_append.mpr (Or.inl ht)
        · exact List.mem_append.mpr (Or.inr (ih L0 hr e hmem x hx t ht))

theorem segsToks_part (part : Str) :
    ∀ (segs : List Str) (L : List Tok), segsToks part segs = Except.ok L →
      ∀ t, t ∈ L → t.part = part := by
  intro segs
  induction segs with
  | nil =>
    intro L h t ht
    cases h
    cases ht
  | cons e0 r ih =>
    intro L h t ht
    unfold segsToks at h
    cases h0 : segToks part e0 with
    | error u => rw [h0] at h; cases h
    | ok x0 =>
      rw [h0] at h
      cases hr : segsToks part r with
      | error u => rw [hr] at h; cases h
      | ok L0 =>
        rw [hr] at h
        simp only [Except.bind] at h
        cases h
        rcases List.mem_append.mp ht with hl | hr2
        · exact segToks_part part e0 x0 h0 t hl
        · exact ih L0 hr t hr2

/-- `parseEpisode` always returns the sorted concatenation of the per-segment
token lists. -/
theorem parseEpisode_sort (s : Str) (lseg : List Tok)
    (hseg : segsToks (partOf (normEp s)) (splitSp (normEp s)) = Except.ok lseg) :
    parseEpisode s = Except.ok (sortToks lseg) := by
  show Except.map sortToks (segsToks (partOf (normEp s)) (splitSp (normEp s)))
    = Except.ok (sortToks lseg)
  rw [hseg]
  rfl

theorem scanFirst_head (f : Str → Option α) (s : Str) (a : α) (h : f s = some a) :
    scanFirst f s = some a := by
  cases s with
  | nil => simpa [scanFirst] using h
  | cons c u => simp [scanFirst, h]

/-! ### Helpers for quality-marker segments (digits followed by `P`) -/

theorem win6b_short (t : Str) (h : t.length ≤ 5) : win6b t = false := by
  rcases t with - | ⟨a, - | ⟨b, - | ⟨c, - | ⟨d, - | ⟨e, - | ⟨f, rest⟩⟩⟩⟩⟩⟩ <;>
    first
      | rfl
      | (exfalso; simp [List.length_cons] at h)

theorem anySuf_false (p : Str → Bool) :
    ∀ s : Str, (∀ t : Str, p t = false) → anySuf p s = false := by
  intro s hp
  induction s with
  | nil => exact hp []
  | cons c u ih => simp [anySuf, hp, ih]

theorem dateSearch_short (s : Str) (h : s.length ≤ 5) : dateSearch s = false := by
  unfold dateSearch
  induction s with
  | nil => rfl
  | cons c u ih =>
    simp only [anySuf, Bool.or_eq_false_iff]
    refine ⟨win6b_short _ h, ?_⟩
    exact ih (by simp at h ⊢; omega)

theorem takeWhile_dig_append (ds : Str) (h : ∀ c, c ∈ ds → isDig c = true) :
    (ds ++ ['P']).takeWhile isDig = ds := by
  induction ds with
  | nil => rfl
  | cons c r ih =>
    rw [List.cons_append, List.takeWhile_cons, if_pos (h c (List.mem_cons_self c r))]
    rw [ih (fun c2 hc2 => h c2 (List.mem_cons_of_mem c hc2))]

theorem epSearch_digP (s : Str)
    (hs : ∀ c, c ∈ s → c ∈ ("0123456789P".toList)) : epSearch s = false := by
  induction s with
  | nil => rfl
  | cons c u ih =>
    have hrec : epSearch u = false :=
      ih (fun c2 hc2 => hs c2 (List.mem_cons_of_mem c hc2))
    have hc : c = '0' ∨ c = '1' ∨ c = '2' ∨ c = '3' ∨ c = '4' ∨ c = '5' ∨ c = '6' ∨
        c = '7' ∨ c = '8' ∨ c = '9' ∨ c = 'P' := by
      simpa using hs c (List.mem_cons_self c u)
    unfold epSearch at hrec ⊢
    simp only [anySuf, Bool.or_eq_false_iff]
    refine ⟨?_, hrec⟩
    rcases hc with rfl | rfl | rfl | rfl | rfl | rfl | rfl | rfl | rfl | rfl | rfl <;>
      simp [sAlt1, sAlt2, sAlt3, sAlt4, ciPre, epWord, lowC]

theorem char_toNat_inj (a b : Char) (h : a.toNat = b.toNat) : a = b := by
  apply Char.eq_of_val_eq
  apply UInt32.eq_of_val_eq
  exact Fin.eq_of_val_eq h

theorem isDig_mem (c : Char) (h : isDig c = true) : c ∈ ("0123456789P".toList) := by
  simp only [isDig, decide_eq_true_eq] at h
  have hc : c.toNat = 48 ∨ c.toNat = 49 ∨ c.toNat = 50 ∨ c.toNat = 51 ∨ c.toNat = 52 ∨
      c.toNat = 53 ∨ c.toNat = 54 ∨ c.toNat = 55 ∨ c.toNat = 56 ∨ c.toNat = 57 := by omega
  rcases hc with h0 | h0 | h0 | h0 | h0 | h0 | h0 | h0 | h0 | h0
  · rw [char_toNat_inj c '0' (by rw [h0]; rfl)]; decide
  · rw [char_toNat_inj c '1' (by rw [h0]; rfl)]; decide
  · rw [char_toNat_inj c '2' (by rw [h0]; rfl)]; decide
  · rw [char_toNat_inj c '3' (by rw [h0]; rfl)]; decide
  · rw [char_toNat_inj c '4' (by rw [h0]; rfl)]; decide
  · rw [char_toNat_inj c '5' (by rw [h0]; rfl)]; decide
  · rw [char_toNat_inj c '6' (by rw [h0]; rfl)]; decide
  · rw [char_toNat_inj c '7' (by rw [h0]; rfl)]; decide
  · rw [char_toNat_inj c '8' (by rw [h0]; rfl)]; decide
  · rw [char_toNat_inj c '9' (by rw [h0]; rfl)]; decide

theorem natOf_zero_cons (xs : Str) : natOf ('0' :: xs) = natOf xs := rfl

theorem takeWhile_not_dig (ds : Str) (hne : ds ≠ []) (h : ∀ c, c ∈ ds → isDig c = true) :
    (ds ++ ['P']).takeWhile (fun c => !isDig c) = [] := by
  cases ds with
  | nil => exact absurd rfl hne
  | cons c0 r =>
    rw [List.cons_append, List.takeWhile_cons,
      if_neg (by simp [h c0 (List.mem_cons_self c0 r)])]

theorem bAt_quality (ds : Str) (hne : ds ≠ []) (hlen : ds.length ≤ 4)
    (h : ∀ c, c ∈ ds → isDig c = true) :
    ∃ cap, bAt (ds ++ ['P']) = some cap ∧ natOf cap = natOf ds := by
  cases ds with
  | nil => exact absurd rfl hne
  | cons c0 r =>
    have hr : ∀ c, c ∈ r → isDig c = true := fun c hc => h c (List.mem_cons_of_mem c0 hc)
    have hrl : r.length ≤ 3 := by simpa using hlen
    rw [List.cons_append]
    unfold bAt
    dsimp only
    rw [if_pos (h c0 (List.mem_cons_self c0 r))]
    by_cases hz : c0 = '0' ∧ headDig (r ++ ['P']) = true
    · rw [if_pos hz]
      refine ⟨_, rfl, ?_⟩
      unfold take4Dig
      rw [takeWhile_dig_append r hr, List.take_of_length_le (by omega)]
      rw [hz.1]
      exact (natOf_zero_cons r).symm
    · rw [if_neg hz]
      refine ⟨_, rfl, ?_⟩
      unfold take4Dig
      rw [show ((c0 :: (r ++ ['P'])).takeWhile isDig) = c0 :: r from by
            rw [List.takeWhile_cons, if_pos (h c0 (List.mem_cons_self c0 r)),
              takeWhile_dig_append r hr]]
      rw [List.take_of_length_le (by simp; omega)]

theorem segToks_quality (part ds : Str) (h3 : 3 ≤ ds.length) (h4 : ds.length ≤ 4)
    (hds : ∀ c, c ∈ ds → isDig c = true) :
    segToks part (ds ++ ['P'])
      = Except.ok [⟨Val.num (natOf ds : ℚ), part, 'e'⟩, ⟨Val.str resStr, part, 'r'⟩] := by
  have hdsne : ds ≠ [] := by
    intro hcon
    rw [hcon] at h3
    simp at h3
  have htw : (ds ++ ['P']).takeWhile isDig = ds := takeWhile_dig_append ds hds
  have hdate : dateSearch (ds ++ ['P']) = false := dateSearch_short _ (by simp; omega)
  have hep : epSearch (ds ++ ['P']) = false := by
    refine epSearch_digP _ (fun c hc => ?_)
    rcases List.mem_append.mp hc with hm | hm
    · exact isDig_mem c (hds c hm)
    · rw [List.mem_singleton] at hm
      subst hm
      decide
  have hbare : bareSearch (ds ++ ['P']) = true := by
    unfold bareSearch
    rw [takeWhile_not_dig ds hdsne hds]
    simp only [List.length_nil, List.drop_zero, Nat.zero_add]
    simp only [htw]
    rw [List.drop_left]
    simp only [Bool.and_eq_true, decide_eq_true_eq]
    exact ⟨⟨by omega, h4⟩, by decide⟩
  obtain ⟨cap, hbat, hnat⟩ := bAt_quality ds hdsne h4 hds
  have hbc : bareCap (ds ++ ['P']) = some cap := scanFirst_head _ _ _ hbat
  have hres : resSearch (ds ++ ['P']) = true := by
    have hdr : digRun (ds ++ ['P']) = ds.length := by
      unfold digRun
      rw [htw]
    unfold resSearch
    dsimp only
    rw [hdr, List.get?_concat_length]
    have hd4 : (ds.length = 3 ∨ ds.length = 4) ∧
        ((some 'P' : Option Char) = some 'P' ∨ (some 'P' : Option Char) = some 'p') :=
      ⟨by omega, Or.inl rfl⟩
    simp [hd4]
  have hdt : dTok part (ds ++ ['P']) = Except.ok [] := by
    unfold dTok
    rw [if_neg (by simp [hdate])]
  have hnt : nTok part (ds ++ ['P']) = Except.ok [⟨Val.num (natOf ds : ℚ), part, 'e'⟩] := by
    unfold nTok
    rw [if_neg (by simp [hep]), if_pos hbare, hbc]
    dsimp only
    rw [hnat]
  unfold segToks
  rw [hdt, hnt]
  simp only [Except.bind]
  rw [if_pos hres]
  simp

/-! ## Claims -/

/-- C1, counterexample: with reference label `第1集 第2集` against a group `B`
holding `('/a', '1 2')` and `('/b', '1 2')`-mate `('/b', '2')`, the run
returns both entries of the group even though the token `2` is contained in
both entries' parsed token lists: acceptance is not "exactly one entry of
the group exactly matches", because the exact-match list excludes entries
already accepted for an earlier token (`y not in src`). -/
theorem claim1_counter :
    extractOtherSrc [⟨sB, [(lnkA, lblOneTwo), (lnkB, lblTwo)]⟩] epOneTwo sA
      = Except.ok [(lnkA, lblOneTwo, sB), (lnkB, lblTwo, sB)] ∧
    (⟨Val.num 2, [], 'e'⟩ : Tok) ∈ parseToks epOneTwo ∧
    (⟨Val.num 2, [], 'e'⟩ : Tok) ∈ parseToks lblOneTwo ∧
    (⟨Val.num 2, [], 'e'⟩ : Tok) ∈ parseToks lblTwo := by decide

/-- C1 (amended): every returned entry comes from a group other than the
reference source, tagged with that group's name and drawn from its entry
list; for each reference token the exact-match list `z` holds exactly the
group's entries *not already accepted* whose parsed token list contains the
token, and the per-token step accepts the single member of `z` when `z` has
exactly one, else the single near match when `z` is empty and there is
exactly one, else nothing. -/
theorem claim1_amended (links : List Group) (episode current : Str)
    (out : List Entry3) (h : extractOtherSrc links episode current = Except.ok out) :
    (∀ y', y' ∈ out →
      ∃ g, g ∈ links ∧ g.source ≠ current ∧ y'.2.2 = g.source ∧ (y'.1, y'.2.1) ∈ g.links) ∧
    (∀ (e : Tok) (lsrc : Str) (src : List Entry3) (ys : List (Str × Str))
        (rest : List Tok) (z d : List Entry3),
      perLinks e lsrc src ys = Except.ok (z, d) →
      z = (ys.map (fun y => (y.1, y.2, lsrc))).filter
            (fun y' => decide (y' ∉ src ∧ e ∈ parseToks y'.2.1)) ∧
      perToks lsrc ys (e :: rest) src =
        perToks lsrc ys rest
          (if z.length = 1 then src ++ z
           else if z = [] ∧ d.length = 1 then src ++ d
           else src)) := by
  constructor
  · intro y' hy'
    rcases perGroups_inv episode current links [] out h y' hy' with hin | hg
    · exact absurd hin (List.not_mem_nil y')
    · exact hg
  · intro e lsrc src ys rest z d hpl
    refine ⟨(perLinks_spec e lsrc src ys z d hpl).1, ?_⟩
    conv_lhs => rw [perToks]
    rw [hpl]
    simp only [Except.bind]
    rcases z with - | ⟨a, - | ⟨b, z3⟩⟩
    · rw [if_neg (by simp)]
      rcases d with - | ⟨a2, - | ⟨b2, d3⟩⟩
      · rw [if_neg (by simp)]
      · rw [if_pos (by simp)]
      · rw [if_neg (by rintro ⟨-, hl⟩; simp only [List.length_cons] at hl; omega)]
    · rw [if_pos (by simp)]
    · rw [if_neg (by simp only [List.length_cons]; omega), if_neg (by simp)]

theorem claim1_witness :
    (∀ y', y' ∈ [(lnkX, lblEp4, sB)] →
      ∃ g, g ∈ [Group.mk sB [(lnkX, lblEp4)]] ∧ g.source ≠ sA ∧
        y'.2.2 = g.source ∧ (y'.1, y'.2.1) ∈ g.links) ∧
    (∀ (e : Tok) (lsrc : Str) (src : List Entry3) (ys : List (Str × Str))
        (rest : List Tok) (z d : List Entry3),
      perLinks e lsrc src ys = Except.ok (z, d) →
      z = (ys.map (fun y => (y.1, y.2, lsrc))).filter
            (fun y' => decide (y' ∉ src ∧ e ∈ parseToks y'.2.1)) ∧
      perToks lsrc ys (e :: rest) src =
        perToks lsrc ys rest
          (if z.length = 1 then src ++ z
           else if z = [] ∧ d.length = 1 then src ++ d
           else src)) :=
  claim1_amended [⟨sB, [(lnkX, lblEp4)]⟩] di4ji sA [(lnkX, lblEp4, sB)] (by decide)

/-- C2, counterexample: the label `foo` parses to no date token at all, yet
against the reference label `500102` (2050-01-02) its entry is collected as
a near match and accepted: the comparison falls back to the sentinel
`500101` (2050-01-01) when the candidate has no date token with the
reference part. -/
theorem claim2_counter :
    extractOtherSrc [⟨sB, [(lnkX, lblFoo)]⟩] ep500102 sA
      = Except.ok [(lnkX, lblFoo, sB)] ∧
    (∀ t, t ∈ parseToks lblFoo → t.tag ≠ 'd') := by decide

/-- C2 (amended): for a date reference token, the near-match bit is set
exactly when the reference date and the date of the candidate's first
same-part date token — or of the sentinel `500101` when there is none —
differ by exactly one proleptic-Gregorian day; a difference of two or more
days never sets it; and with an empty exact-match list and exactly one near
match, that entry is accepted. -/
theorem claim2_amended (e : Tok) (ep : List Tok) (b : Bool)
    (h : nearB e ep = Except.ok b) (ht : e.tag = 'd') :
    (b = true ↔ ∃ d1 d2, strpYmd (valS e.val) = some d1 ∧
        strpYmd (valS (firstCand e ep)) = some d2 ∧
        ((ordD d1 : ℤ) - ordD d2).natAbs = 1) ∧
    (∀ d1 d2, strpYmd (valS e.val) = some d1 →
        strpYmd (valS (firstCand e ep)) = some d2 →
        2 ≤ ((ordD d1 : ℤ) - ordD d2).natAbs → b = false) ∧
    (∀ (lsrc : Str) (ys : List (Str × Str)) (rest : List Tok) (src : List Entry3)
        (y : Entry3),
      perLinks e lsrc src ys = Except.ok ([], [y]) →
      perToks lsrc ys (e :: rest) src = perToks lsrc ys rest (src ++ [y])) := by
  refine ⟨nearB_iff e ep b h ht,
    fun d1 d2 h1 h2 hf => nearB_far e ep b d1 d2 h h1 h2 hf, ?_⟩
  intro lsrc ys rest src y hpl
  conv_lhs => rw [perToks]
  rw [hpl]
  simp only [Except.bind]

theorem claim2_witness :
    ((false : Bool) = true ↔ ∃ d1 d2, strpYmd (valS tokD14.val) = some d1 ∧
        strpYmd (valS (firstCand tokD14 [])) = some d2 ∧
        ((ordD d1 : ℤ) - ordD d2).natAbs = 1) ∧
    (∀ d1 d2, strpYmd (valS tokD14.val) = some d1 →
        strpYmd (valS (firstCand tokD14 [])) = some d2 →
        2 ≤ ((ordD d1 : ℤ) - ordD d2).natAbs → (false : Bool) = false) ∧
    (∀ (lsrc : Str) (ys : List (Str × Str)) (rest : List Tok) (src : List Entry3)
        (y : Entry3),
      perLinks tokD14 lsrc src ys = Except.ok ([], [y]) →
      perToks lsrc ys (tokD14 :: rest) src = perToks lsrc ys rest (src ++ [y])) :=
  claim2_amended tokD14 [] false (by decide) (by decide)

/-- C3: `_parse_episode` never raises and returns a nonempty token list for
every input string, and every whitespace-separated segment of the normalised
label that matches none of the date, episode-number, bare-number, range or
quality patterns contributes its literal token to the result. -/
theorem claim3_total (s : Str) :
    (∃ l, parseEpisode s = Except.ok l ∧ l ≠ []) ∧
    (∀ e, e ∈ splitSp (normEp s) → dateSearch e = false → epSearch e = false →
      bareSearch e = false → rangeSearch e = false → resSearch e = false →
      (⟨Val.str e, partOf (normEp s), 'n'⟩ : Tok) ∈ parseToks s) := by
  refine ⟨parseEpisode_ok s, ?_⟩
  intro e he h1 h2 h3 h4 h5
  obtain ⟨L, hL, -⟩ := segsToks_ok (partOf (normEp s)) (splitSp (normEp s))
  have hlit := segToks_lit (partOf (normEp s)) e h1 h2 h3 h4 h5
  have hmem := segsToks_mem (partOf (normEp s)) (splitSp (normEp s)) L hL e he
    _ hlit _ (List.mem_singleton_self _)
  have hsort := parseEpisode_sort s L hL
  have hpt := parseToks_eq s
  rw [hsort] at hpt
  have hps : parseToks s = sortToks L := (Except.ok.inj hpt).symm
  rw [hps]
  exact (mem_sortToks _ L).mpr hmem

/-- C4, counterexample: the reconciler can raise.  The reference label
`000000` parses to a date-tagged token whose string is not a valid
`%y%m%d` date (month `00`), so the near-match comparison's `strptime` raises
`ValueError` as soon as any foreign group has an entry. -/
theorem claim4_counter :
    extractOtherSrc [⟨sB, [(lnkX, lblEp4)]⟩] zeros6 sA = Except.error () := by decide

/-- C4 (amended): the reconciler raises no exception provided every
date-tagged token of the reference label and of every candidate entry label
carries a `strptime('%y%m%d')`-valid date string; under that hypothesis the
result is always `Except.ok`. -/
theorem claim4_amended (links : List Group) (episode current : Str)
    (hep : datesValid episode)
    (hlinks : ∀ g, g ∈ links → ∀ y, y ∈ g.links → datesValid y.2) :
    ∃ out, extractOtherSrc links episode current = Except.ok out :=
  perGroups_ok episode current hep links [] hlinks

theorem claim4_witness :
    ∃ out, extractOtherSrc [⟨sB, [(lnkX, d230814)]⟩] d230813 sA = Except.ok out :=
  claim4_amended [⟨sB, [(lnkX, d230814)]⟩] d230813 sA
    (by unfold datesValid; decide)
    (by
      intro g hg y hy
      simp only [List.mem_singleton] at hg
      subst hg
      simp only [List.mem_singleton] at hy
      subst hy
      unfold datesValid
      decide)

/-- C5, counterexample: `HD foo` parses to a literal token followed by the
resolution token — the sort key is the tag character and `'n'` (literal)
sorts before `'r'` (resolution), so a resolution token never precedes a
literal one. -/
theorem claim5_counter :
    parseEpisode hdFoo
      = Except.ok [⟨Val.str lblFoo, [], 'n'⟩, ⟨Val.str resStr, [], 'r'⟩] := by decide

/-- C5 (amended): the token list `_parse_episode` returns is sorted by the
single-character kind tag in character order `'d' < 'e' < 'n' < 'r'`: date
first, then episode-number, then literal, then resolution. -/
theorem claim5_amended (s : Str) (l : List Tok) (h : parseEpisode s = Except.ok l) :
    l.Pairwise (fun a b => a.tag ≤ b.tag) := by
  obtain ⟨L, hL, -⟩ := segsToks_ok (partOf (normEp s)) (splitSp (normEp s))
  have hsort := parseEpisode_sort s L hL
  rw [hsort] at h
  have hl : l = sortToks L := (Except.ok.inj h).symm
  subst hl
  exact sortToks_sorted L

theorem claim5_witness :
    ([⟨Val.str abcStr, [], 'n'⟩] : List Tok).Pairwise (fun a b => a.tag ≤ b.tag) :=
  claim5_amended abcStr [⟨Val.str abcStr, [], 'n'⟩] (by decide)

/-- C6: the reconciler has no side effect on its input.  In the
state-passing rendition, where the group list is threaded through every
loop iteration as mutable state, the call returns that state unchanged
alongside the same answer as the plain function, for every input. -/
theorem claim6_frame (links : List Group) (episode current : Str) :
    extractOtherSrcT links episode current
      = (extractOtherSrc links episode current, links) := by
  unfold extractOtherSrcT extractOtherSrc
  exact perGroupsT_eq episode current links [] links

/-- C7: `第4集` and `04` each parse to the episode-number token
`(4.0, '', 'e')`, equal as tuples, and the reconciler exact-matches the two
labels: with reference `第4集` and a foreign group holding only `04`, that
entry is returned. -/
theorem claim7_episode_number :
    (⟨Val.num 4, [], 'e'⟩ : Tok) ∈ parseToks di4ji ∧
    (⟨Val.num 4, [], 'e'⟩ : Tok) ∈ parseToks z04 ∧
    extractOtherSrc [⟨sB, [(lnkX, z04)]⟩] di4ji sA
      = Except.ok [(lnkX, z04, sB)] := by decide

/-- C8, counterexample: the quality-only label `1080P` parses to an
episode-number token and a resolution token, no date token — yet against the
reference label `500102` its entry is accepted through the ±1-day rule,
because the missing date is replaced by the sentinel `500101`. -/
theorem claim8_counter :
    extractOtherSrc [⟨sB, [(lnkX, p1080)]⟩] ep500102 sA
      = Except.ok [(lnkX, p1080, sB)] ∧
    parseToks p1080 = [⟨Val.num 1080, [], 'e'⟩, ⟨Val.str resStr, [], 'r'⟩] ∧
    parseToks ep500102 = [⟨Val.str ep500102, [], 'd'⟩] := by decide

/-- C8 (amended): an entry without a same-part date token is compared
against the sentinel date 2050-01-01, so it is near-matched exactly for
reference dates 2049-12-31 and 2050-01-02: a non-date reference token never
near-matches, and a date reference token with any other valid date never
near-matches such an entry. -/
theorem claim8_amended (e : Tok) (ep : List Tok) (b : Bool)
    (h : nearB e ep = Except.ok b)
    (hnod : ep.filter (fun x => decide (x.part = e.part ∧ x.tag = 'd')) = []) :
    (e.tag ≠ 'd' → b = false) ∧
    (∀ dd, e.tag = 'd' → strpYmd (valS e.val) = some dd →
      dd ≠ (2049, 12, 31) → dd ≠ (2050, 1, 2) → b = false) := by
  constructor
  · intro ht
    unfold nearB at h
    rw [if_neg ht] at h
    cases h
    rfl
  · intro dd ht hdd h1 h2
    exact nearB_sentinel e ep b dd h ht hnod hdd h1 h2

theorem claim8_witness :
    (tokD14.tag ≠ 'd' → (false : Bool) = false) ∧
    (∀ dd, tokD14.tag = 'd' → strpYmd (valS tokD14.val) = some dd →
      dd ≠ (2049, 12, 31) → dd ≠ (2050, 1, 2) → (false : Bool) = false) :=
  claim8_amended tokD14 toksP false (by decide) (by decide)

/-- C9: every token of a parsed label carries the same part tag, the one
value computed from the whole normalised label by the part extraction
(`partOf`: trailing dash/underscore-plus-digits with a leading zero
stripped, else `預告`, else empty). -/
theorem claim9_part (s : Str) (l : List Tok) (h : parseEpisode s = Except.ok l) :
    ∀ t, t ∈ l → t.part = partOf (normEp s) := by
  obtain ⟨L, hL, -⟩ := segsToks_ok (partOf (normEp s)) (splitSp (normEp s))
  have hsort := parseEpisode_sort s L hL
  rw [hsort] at h
  have hl : l = sortToks L := (Except.ok.inj h).symm
  subst hl
  intro t ht
  exact segsToks_part (partOf (normEp s)) (splitSp (normEp s)) L hL t
    ((mem_sortToks t L).mp ht)

theorem claim9_witness :
    (⟨Val.num 12, ['1'], 'e'⟩ : Tok).part = partOf (normEp ep12up) :=
  claim9_part ep12up [⟨Val.num 12, ['1'], 'e'⟩] (by decide)
    ⟨Val.num 12, ['1'], 'e'⟩ (List.mem_singleton_self _)

/-- C10: a segment of three or four digits followed by `P` yields exactly an
episode-number token holding the digits' value and a resolution token — the
two classifications are not mutually exclusive — and concretely the label
`1080P` exact-matches an episode numbered 1080 in the reconciler. -/
theorem claim10_quality (part ds : Str) (h3 : 3 ≤ ds.length) (h4 : ds.length ≤ 4)
    (hds : ∀ c, c ∈ ds → isDig c = true) :
    segToks part (ds ++ ['P'])
      = Except.ok [⟨Val.num (natOf ds : ℚ), part, 'e'⟩, ⟨Val.str resStr, part, 'r'⟩] ∧
    (⟨Val.num 1080, [], 'e'⟩ : Tok) ∈ parseToks p1080 ∧
    extractOtherSrc [⟨sB, [(lnkX, p1080)]⟩] lbl1080 sA
      = Except.ok [(lnkX, p1080, sB)] :=
  ⟨segToks_quality part ds h3 h4 hds, by decide, by decide⟩

theorem claim10_witness :
    segToks [] (d1080 ++ ['P'])
      = Except.ok [⟨Val.num (natOf d1080 : ℚ), [], 'e'⟩, ⟨Val.str resStr, [], 'r'⟩] ∧
    (⟨Val.num 1080, [], 'e'⟩ : Tok) ∈ parseToks p1080 ∧
    extractOtherSrc [⟨sB, [(lnkX, p1080)]⟩] lbl1080 sA
      = Except.ok [(lnkX, p1080, sB)] :=
  claim10_quality [] d1080 (by decide) (by decide) (by decide)

end Gimy
